import Mathlib

/-!
Verification of the markdown-to-HTML build tooling of the blog repository.

The development shallowly embeds the two converter scripts:

* `md-to-html-fixed.js` — the hand-rolled regex pipeline (`MarkdownConverter`):
  front-matter extraction (`parseFrontMatter`), the ordered rule table
  (fenced code, headers, emphasis, inline code, links, images, hr, list
  items, blockquotes), paragraph post-processing and the `</ul>\s*<ul>`
  merge (`parseMarkdown`), plus `escapeHtml`.
* the marked-based build script (`blog-build` and its extended variant with
  `convertAllFiles`, `updateMetadata` and the command dispatch) — modelled
  at the level of its control flow.  The external `marked.parse` library
  call and the HTML page template are kept abstract (they are parameters of
  the model), since no claim depends on their output text.

Text is modelled as `List Char`; JavaScript regex replacement is modelled by
left-to-right scanners that mirror the exact backtracking behaviour of each
pattern used by the source (every pattern in the rule table is simple enough
that its match at a given position is deterministic).  The scanners take a
fuel argument bounded by the text length; every matcher consumes at least
one character per match, so the fuel is never exhausted (proved below in
`scanRepF_fuel_inv`).
-/

abbrev Chars := List Char

/-- Coerce a string literal to the character-list representation. -/
def str (s : String) : Chars := s.data

/-- The double-quote character. -/
def dq : Char := Char.ofNat 34

/-- JavaScript whitespace, restricted to the characters this data can
contain (space, tab, newline, carriage return, vertical tab, form feed). -/
def isWs (c : Char) : Bool :=
  c = ' ' || c = '\t' || c = '\n' || c = '\r' || c = '\x0b' || c = '\x0c'

/-- `String.prototype.trim`: drop leading and trailing whitespace. -/
def trimChars (s : Chars) : Chars :=
  ((s.dropWhile isWs).reverse.dropWhile isWs).reverse

/-- `String.prototype.startsWith`, on character lists. -/
def startsWithC : Chars → Chars → Bool
  | [], _ => true
  | _ :: _, [] => false
  | p :: ps, c :: cs => p == c && startsWithC ps cs

/-- `String.prototype.endsWith`, on character lists. -/
def endsWithC (p s : Chars) : Bool := startsWithC p.reverse s.reverse

/-- `String.prototype.includes`, on character lists. -/
def hasSub (p : Chars) : Chars → Bool
  | [] => p.isEmpty
  | c :: cs => startsWithC p (c :: cs) || hasSub p cs

/-- A front-matter value: either a scalar string or a bracketed list
(`frontMatter[key]` in the source holds either a string or an array). -/
inductive FMValue where
  | strv (s : Chars)
  | listv (l : List Chars)
  deriving DecidableEq, Repr, Inhabited

/-- JavaScript truthiness of a front-matter value: a string is truthy iff
nonempty, an array is always truthy. -/
def truthyV : FMValue → Bool
  | .strv s => !s.isEmpty
  | .listv _ => true

/-- Truthiness of `frontMatter[key]` where the key may be absent. -/
def truthyOpt : Option FMValue → Bool
  | none => false
  | some v => truthyV v

/-- `frontMatter.k || dflt` — the JavaScript or-else on a possibly absent,
possibly falsy field. -/
def fmOr (v : Option FMValue) (dflt : Chars) : FMValue :=
  match v with
  | some x => if truthyV x then x else .strv dflt
  | none => .strv dflt

/-- `Array.isArray(frontMatter.tags) ? frontMatter.tags : []`. -/
def tagsOf : Option FMValue → List Chars
  | some (.listv l) => l
  | _ => []

/-- Consume `\r?\n` at the head of the text. -/
def nlOpt : Chars → Option Chars
  | [] => none
  | c :: cs =>
    if c = '\n' then some cs
    else if c = '\r' then
      match cs with
      | [] => none
      | c2 :: r => if c2 = '\n' then some r else none
    else none

def dash3 : Chars := ['-', '-', '-']

/-- Match `\r?\n---\r?\n` at the head of the text. -/
def fmSep (s : Chars) : Option Chars :=
  match nlOpt s with
  | some r => if startsWithC dash3 r then nlOpt (r.drop 3) else none
  | none => none

/-- Scan for the earliest occurrence of the closing-delimiter separator
`\r?\n---\r?\n` (the non-greedy `([\s\S]*?)` of the front-matter regex),
returning the text before it and the text after it. -/
def findFmClose : Chars → Option (Chars × Chars)
  | [] => none
  | c :: cs =>
    match fmSep (c :: cs) with
    | some rest => some ([], rest)
    | none => (findFmClose cs).map (fun p => (c :: p.1, p.2))

/-- The anchored front-matter regex
`/^---\r?\n([\s\S]*?)\r?\n---\r?\n([\s\S]*)$/`: `some (block, body)` when the
text starts with a complete delimiter pair. -/
def fmMatch (content : Chars) : Option (Chars × Chars) :=
  if startsWithC dash3 content then
    match nlOpt (content.drop 3) with
    | some afterOpen => findFmClose afterOpen
    | none => none
  else none

/-- Split on `/\r?\n/` (the line split applied to the front-matter block). -/
def splitNlLines : Chars → List Chars
  | [] => [[]]
  | '\r' :: '\n' :: rest => [] :: splitNlLines rest
  | '\n' :: rest => [] :: splitNlLines rest
  | c :: rest =>
    match splitNlLines rest with
    | l :: ls => (c :: l) :: ls
    | [] => [[c]]

/-- `line.indexOf(':')` followed by the two `substring` calls: split a line
at its first colon, `none` when the line has no colon. -/
def splitColon : Chars → Option (Chars × Chars)
  | [] => none
  | c :: cs =>
    if c = ':' then some ([], cs)
    else (splitColon cs).map (fun p => (c :: p.1, p.2))

/-- `value.startsWith('"') && value.endsWith('"')` (a single `"` satisfies
both, exactly as in JavaScript). -/
def isQuotedWrap (v : Chars) : Bool :=
  startsWithC [dq] v && endsWithC [dq] v

/-- `value.slice(1, -1)`. -/
def sliceEnds (v : Chars) : Chars := (v.drop 1).dropLast

/-- `value.startsWith('[') && value.endsWith(']')`. -/
def isBracketed (v : Chars) : Bool :=
  startsWithC ['['] v && endsWithC [']'] v

/-- `item.trim().replace(/["\[\]]/g, '')` applied to one comma-separated
piece of a bracketed value. -/
def cleanListItem (item : Chars) : Chars :=
  (trimChars item).filter (fun c => !(c = dq || c = '[' || c = ']'))

/-- The bracketed-value parse: strip the brackets, split on commas, clean
each piece. -/
def parseListItems (v : Chars) : List Chars :=
  ((sliceEnds v).splitOn ',').map cleanListItem

/-- Value normalisation of `parseFrontMatter`: the quote-stripping `if`
followed by the (separate, not `else`-guarded) bracket `if` of the source. -/
def normalizeFMValue (v : Chars) : FMValue :=
  let v1 := if isQuotedWrap v then sliceEnds v else v
  if isBracketed v1 then .listv (parseListItems v1) else .strv v1

/-- One line of the front-matter block: key/value extraction (lines without
a colon are skipped). -/
def parseFMLine (line : Chars) : Option (Chars × FMValue) :=
  match splitColon line with
  | none => none
  | some (k, v) => some (trimChars k, normalizeFMValue (trimChars v))

/-- `parseFrontMatter` of both converter scripts: front-matter record (as an
ordered association list; the JavaScript object's overwrite-on-duplicate is
realised by `fmLookup` taking the last binding) and body. -/
def parseFrontMatterL (content : Chars) : List (Chars × FMValue) × Chars :=
  match fmMatch content with
  | none => ([], content)
  | some (blk, body) => ((splitNlLines blk).filterMap parseFMLine, trimChars body)

/-- Lookup in the front-matter record; the last binding for a key wins,
matching assignment into a JavaScript object. -/
def fmLookup (fm : List (Chars × FMValue)) (k : Chars) : Option FMValue :=
  (fm.reverse.find? (fun p => p.1 == k)).map (fun p => p.2)

/-! ### The regex rule pipeline of `md-to-html-fixed.js` -/

/-- One character of `escapeHtml`'s replacement map. -/
def escChar (c : Char) : Chars :=
  if c = '&' then str "&amp;"
  else if c = '<' then str "&lt;"
  else if c = '>' then str "&gt;"
  else if c = dq then str "&quot;"
  else if c = Char.ofNat 39 then str "&#39;"
  else [c]

/-- `escapeHtml`: `text.replace(/[&<>"']/g, m => map[m])`. -/
def escapeHtml (s : Chars) : Chars := (s.map escChar).flatten

/-- The generic global-replace scanner: at each position try the matcher;
on a match emit its replacement and continue after the consumed span,
otherwise emit one character and advance.  `fuel` dominates the number of
steps; every matcher used below consumes at least one character, so
`scanRep` (which supplies `length + 1` fuel) never exhausts it. -/
def scanRepF (t : Chars → Option (Chars × Chars)) : Nat → Chars → Chars
  | 0, s => s
  | fuel + 1, s =>
    match t s with
    | some p => p.1 ++ scanRepF t fuel p.2
    | none =>
      match s with
      | [] => []
      | c :: cs => c :: scanRepF t fuel cs

/-- `String.prototype.replace` with a global regex, for the scanners. -/
def scanRep (t : Chars → Option (Chars × Chars)) (s : Chars) : Chars :=
  scanRepF t (s.length + 1) s

/-- `[A-Za-z0-9_]`, the `\w` class of the fence's language tag. -/
def isWordChar (c : Char) : Bool :=
  ('a' ≤ c && c ≤ 'z') || ('A' ≤ c && c ≤ 'Z') || ('0' ≤ c && c ≤ '9') || c = '_'

def fence3 : Chars := ['`', '`', '`']

/-- Match `\r?\n\x60\x60\x60` — the closing sequence of a fenced block. -/
def fenceTermHead (s : Chars) : Option Chars :=
  match nlOpt s with
  | some r => if startsWithC fence3 r then some (r.drop 3) else none
  | none => none

/-- Non-greedy scan of the fence content `([\s\S]*?)` up to the earliest
closing `\r?\n\x60\x60\x60`. -/
def findFenceClose : Chars → Option (Chars × Chars)
  | [] => none
  | c :: cs =>
    match fenceTermHead (c :: cs) with
    | some r => some ([], r)
    | none => (findFenceClose cs).map (fun p => (c :: p.1, p.2))

/-- The fence rule's replacement function: `<pre><code${language}>`
wrapping the escaped, trimmed content. -/
def fenceRender (lang content : Chars) : Chars :=
  if lang.isEmpty then
    str "<pre><code>" ++ escapeHtml (trimChars content) ++ str "</code></pre>"
  else
    str "<pre><code class=\"language-" ++ lang ++ str "\">" ++
      escapeHtml (trimChars content) ++ str "</code></pre>"

/-- Rule 1 matcher: three backticks, optional `\w+` language tag,
`\r?\n`, non-greedy content, `\r?\n`, three backticks. -/
def matchFence (s : Chars) : Option (Chars × Chars) :=
  if startsWithC fence3 s then
    match nlOpt ((s.drop 3).dropWhile isWordChar) with
    | some s3 =>
      (findFenceClose s3).map (fun p => (fenceRender ((s.drop 3).takeWhile isWordChar) p.1, p.2))
    | none => none
  else none

/-- Non-greedy same-line scan for a closing delimiter: grow the content one
character at a time (`.` excludes line terminators), checking the delimiter
first at each position. -/
def findCloseDelim (d : Chars) : Chars → Option (Chars × Chars)
  | [] => none
  | c :: cs =>
    if startsWithC d (c :: cs) then some ([], (c :: cs).drop d.length)
    else if c = '\n' || c = '\r' then none
    else (findCloseDelim d cs).map (fun p => (c :: p.1, p.2))

/-- Matcher for the emphasis patterns `delim(.*?)delim`. -/
def matchDelim (d : Chars) (mk : Chars → Chars) (s : Chars) : Option (Chars × Chars) :=
  if startsWithC d s then
    (findCloseDelim d (s.drop d.length)).map (fun p => (mk p.1, p.2))
  else none

def star3 : Chars := ['*', '*', '*']
def star2 : Chars := ['*', '*']
def star1 : Chars := ['*']

def mkEm3 (c : Chars) : Chars := str "<strong><em>" ++ c ++ str "</em></strong>"
def mkEm2 (c : Chars) : Chars := str "<strong>" ++ c ++ str "</strong>"
def mkEm1 (c : Chars) : Chars := str "<em>" ++ c ++ str "</em>"

/-- Greedy scan for a single stop character: `[^x]+` up to the first `x`
(sound because the class excludes the stop character). -/
def findCloseCh (stop : Char) : Chars → Option (Chars × Chars)
  | [] => none
  | c :: cs =>
    if c = stop then some ([], cs)
    else (findCloseCh stop cs).map (fun p => (c :: p.1, p.2))

/-- Inline-code matcher: `` `([^`]+)` `` (no escaping is applied). -/
def matchCode (s : Chars) : Option (Chars × Chars) :=
  match s with
  | [] => none
  | c :: rest =>
    if c = '`' then
      match findCloseCh '`' rest with
      | some (ct, r) =>
        if ct.isEmpty then none else some (str "<code>" ++ ct ++ str "</code>", r)
      | none => none
    else none

/-- The `](target)` tail shared by the link and image patterns: the text
after the closing bracket must continue with `(`, at least one
non-parenthesis character, and `)`. -/
def linkTail (r1 : Chars) : Option (Chars × Chars) :=
  match r1 with
  | [] => none
  | c :: r2 =>
    if c = '(' then
      match findCloseCh ')' r2 with
      | some (tgt, r3) => if tgt.isEmpty then none else some (tgt, r3)
      | none => none
    else none

/-- Link matcher: `\[([^\]]+)\]\(([^)]+)\)`. -/
def matchLink (s : Chars) : Option (Chars × Chars) :=
  match s with
  | [] => none
  | c :: rest =>
    if c = '[' then
      match findCloseCh ']' rest with
      | some (txt, r1) =>
        if txt.isEmpty then none
        else
          match linkTail r1 with
          | some (tgt, r3) =>
            some (str "<a href=\"" ++ tgt ++ str "\">" ++ txt ++ str "</a>", r3)
          | none => none
      | none => none
    else none

/-- Image matcher: `!\[([^\]]*)\]\(([^)]+)\)` (the alt text may be empty). -/
def matchImage (s : Chars) : Option (Chars × Chars) :=
  match s with
  | c :: c1 :: r1 =>
    if c = '!' then
      if c1 = '[' then
        match findCloseCh ']' r1 with
        | some (alt, r2) =>
          match linkTail r2 with
          | some (tgt, r4) =>
            some (str "<img src=\"" ++ tgt ++ str "\" alt=\"" ++ alt ++ str "\">", r4)
          | none => none
        | none => none
      else none
    else none
  | _ => none

/-! Line-anchored rules (`gm` patterns): the text splits at line terminators
(`^`/`$` in JavaScript multiline mode anchor at `\n` and `\r`), each line is
transformed, and the terminators are kept. -/

def isLineTerm (c : Char) : Bool := c = '\n' || c = '\r'

/-- Split into the first line and the (terminator, line) pairs after it. -/
def splitL : Chars → Chars × List (Char × Chars)
  | [] => ([], [])
  | c :: cs =>
    let p := splitL cs
    if isLineTerm c then ([], (c, p.1) :: p.2) else (c :: p.1, p.2)

def joinL (p : Chars × List (Char × Chars)) : Chars :=
  p.1 ++ (p.2.map (fun q => q.1 :: q.2)).flatten

/-- Apply a per-line transform, keeping the line terminators. -/
def mapLines (f : Chars → Chars) (s : Chars) : Chars :=
  joinL (f (splitL s).1, (splitL s).2.map (fun q => (q.1, f q.2)))

def h4Pat : Chars := ['#', '#', '#', '#', ' ']
def h3Pat : Chars := ['#', '#', '#', ' ']
def h2Pat : Chars := ['#', '#', ' ']
def h1Pat : Chars := ['#', ' ']

def h4Line (l : Chars) : Chars :=
  if startsWithC h4Pat l then str "<h4>" ++ l.drop 5 ++ str "</h4>" else l

def h3Line (l : Chars) : Chars :=
  if startsWithC h3Pat l then str "<h3>" ++ l.drop 4 ++ str "</h3>" else l

def h2Line (l : Chars) : Chars :=
  if startsWithC h2Pat l then str "<h2>" ++ l.drop 3 ++ str "</h2>" else l

def h1Line (l : Chars) : Chars :=
  if startsWithC h1Pat l then str "<h1>" ++ l.drop 2 ++ str "</h1>" else l

/-- `/^---$/gm`. -/
def hrLine (l : Chars) : Chars := if l = dash3 then str "<hr>" else l

def liPat : Chars := ['-', ' ']

/-- `/^- (.*$)/gm`. -/
def liLine (l : Chars) : Chars :=
  if startsWithC liPat l then str "<li>" ++ l.drop 2 ++ str "</li>" else l

def bqPat : Chars := ['>', ' ']

/-- `/^> (.*$)/gm`. -/
def bqLine (l : Chars) : Chars :=
  if startsWithC bqPat l then str "<blockquote>" ++ l.drop 2 ++ str "</blockquote>" else l

/-! The rule table, applied in source order. -/

def ruleFence : Chars → Chars := scanRep matchFence
def ruleH4 : Chars → Chars := mapLines h4Line
def ruleH3 : Chars → Chars := mapLines h3Line
def ruleH2 : Chars → Chars := mapLines h2Line
def ruleH1 : Chars → Chars := mapLines h1Line
def ruleEm3 : Chars → Chars := scanRep (matchDelim star3 mkEm3)
def ruleEm2 : Chars → Chars := scanRep (matchDelim star2 mkEm2)
def ruleEm1 : Chars → Chars := scanRep (matchDelim star1 mkEm1)
def ruleCode : Chars → Chars := scanRep matchCode
def ruleLink : Chars → Chars := scanRep matchLink
def ruleImage : Chars → Chars := scanRep matchImage
def ruleHr : Chars → Chars := mapLines hrLine
def ruleLi : Chars → Chars := mapLines liLine
def ruleBq : Chars → Chars := mapLines bqLine

/-- `this.rules.forEach(rule => html = html.replace(...))` — the fold over
the rule table in its fixed order. -/
def applyRulesL (s : Chars) : Chars :=
  ruleBq (ruleLi (ruleHr (ruleImage (ruleLink (ruleCode
    (ruleEm1 (ruleEm2 (ruleEm3 (ruleH1 (ruleH2 (ruleH3 (ruleH4 (ruleFence s)))))))))))))

/-! Paragraph post-processing of `parseMarkdown`. -/

/-- Match the paragraph separator `\r?\n\r?\n` at the head of the text. -/
def paraSepHead (s : Chars) : Option Chars := (nlOpt s).bind nlOpt

/-- `html.split(/\r?\n\r?\n/)` (fuelled; the separator consumes at least
two characters, so `length + 1` fuel is never exhausted). -/
def paraSplitF : Nat → Chars → List Chars
  | 0, s => [s]
  | fuel + 1, s =>
    match s with
    | [] => [[]]
    | c :: cs =>
      match paraSepHead (c :: cs) with
      | some rest => [] :: paraSplitF fuel rest
      | none =>
        match paraSplitF fuel cs with
        | p :: ps => (c :: p) :: ps
        | [] => [[c]]

def paraSplit (s : Chars) : List Chars := paraSplitF (s.length + 1) s

def ulOpenPad : Chars := str "<ul>\n" ++ List.replicate 24 ' '
def ulClosePad : Chars := '\n' :: List.replicate 20 ' ' ++ str "</ul>"
def paraJoinSep : Chars := '\n' :: '\n' :: List.replicate 20 ' '

/-- The per-candidate wrapping of `parseMarkdown`'s paragraph map, exactly
as the source's chain of `startsWith` checks. -/
def wrapParagraph (para : Chars) : Chars :=
  let t := trimChars para
  if t.isEmpty then []
  else if startsWithC (str "<h") t || startsWithC (str "<pre") t ||
      startsWithC (str "<ul") t || startsWithC (str "<ol") t ||
      startsWithC (str "<blockquote") t || startsWithC (str "<hr") t ||
      startsWithC (str "<li>") t then t
  else if hasSub (str "<li>") t then ulOpenPad ++ t ++ ulClosePad
  else str "<p>" ++ t ++ str "</p>"

def closeUlPat : Chars := ['<', '/', 'u', 'l', '>']
def openUlPat : Chars := ['<', 'u', 'l', '>']

/-- Matcher for `/<\/ul>\s*<ul>/g` (the replacement is empty). -/
def matchUlGap (s : Chars) : Option (Chars × Chars) :=
  if startsWithC closeUlPat s then
    if startsWithC openUlPat ((s.drop 5).dropWhile isWs) then
      some ([], ((s.drop 5).dropWhile isWs).drop 4)
    else none
  else none

/-- `html.replace(/<\/ul>\s*<ul>/g, '')` — the adjacent-list merge. -/
def fixNested : Chars → Chars := scanRep matchUlGap

/-- `parseMarkdown` of `md-to-html-fixed.js`. -/
def parseMarkdownL (markdown : Chars) : Chars :=
  if markdown.isEmpty then []
  else
    let html := applyRulesL markdown
    let paras := (paraSplit html).map wrapParagraph
    fixNested (List.intercalate paraJoinSep (paras.filter (fun p => !p.isEmpty)))

/-! Specification-side rendering of the paragraph step (for the refinement
statement of the paragraph post-processing claim): the same trichotomy, with
the guard of the first branch phrased as "starts with a block-level tag
produced by the rules", list-item tag included. -/

def blockTagsSpec : List Chars :=
  [str "<h", str "<pre", str "<ul", str "<ol", str "<blockquote", str "<hr", str "<li>"]

def startsWithBlockTag (t : Chars) : Bool :=
  blockTagsSpec.any (fun p => startsWithC p t)

/-- Candidate wrapping as worded by the (amended) specification: unwrapped
when the candidate already starts with a block-level tag (including a
list-item tag); wrapped in a list container when it contains a list item but
does not start with such a tag; otherwise wrapped in a paragraph. -/
def specWrapCandidate (para : Chars) : Chars :=
  let t := trimChars para
  if t.isEmpty then []
  else if startsWithBlockTag t then t
  else if hasSub (str "<li>") t then ulOpenPad ++ t ++ ulClosePad
  else str "<p>" ++ t ++ str "</p>"

/-! ### The marked-based build script (`convertFile`, `convertAllFiles`,
`updateMetadata`, CLI dispatch) -/

/-- An index entry of `metadata.json` (`postEntry` in `updateMetadata`). -/
structure PostEntry where
  title : FMValue
  date : FMValue
  category : FMValue
  excerpt : FMValue
  tags : List Chars
  url : Chars
  readTime : FMValue
  author : FMValue
  deriving DecidableEq, Repr, Inhabited

/-- `file.replace(/\.md$/, '.html')`. -/
def htmlNameOf (n : Chars) : Chars :=
  if endsWithC (str ".md") n then n.dropLast.dropLast.dropLast ++ str ".html" else n

/-- `file.endsWith('.md') && !file.startsWith('.')` — the directory filter
of both `convertAllFiles` and `updateMetadata`. -/
def isMdName (n : Chars) : Bool :=
  endsWithC (str ".md") n && !startsWithC (str ".") n

/-- The body of `updateMetadata`'s per-file loop: the entry pushed for a
file whose front matter has a truthy title and a truthy date, `none`
otherwise (the file is silently skipped). -/
def postEntryOf (name content : Chars) : Option PostEntry :=
  match fmLookup (parseFrontMatterL content).1 (str "title"),
      fmLookup (parseFrontMatterL content).1 (str "date") with
  | some t, some d =>
    if truthyV t && truthyV d then
      some
        { title := t
          date := d
          category := fmOr (fmLookup (parseFrontMatterL content).1 (str "category"))
            (str "general")
          excerpt := fmOr (fmLookup (parseFrontMatterL content).1 (str "excerpt")) []
          tags := tagsOf (fmLookup (parseFrontMatterL content).1 (str "tags"))
          url := str "./posts/" ++ htmlNameOf name
          readTime := fmOr (fmLookup (parseFrontMatterL content).1 (str "readTime"))
            (str "5 min read")
          author := fmOr (fmLookup (parseFrontMatterL content).1 (str "author"))
            (str "Prashish Phunyal") }
    else none
  | _, _ => none

/-- The sort comparator `(a, b) => new Date(b.date) - new Date(a.date)`:
the element order it induces, parameterised by the date valuation `dv`
(the numeric timestamp `new Date(…)` produces). -/
def metaR (dv : FMValue → Int) (a b : PostEntry) : Prop :=
  dv b.date ≤ dv a.date

instance (dv : FMValue → Int) : DecidableRel (metaR dv) :=
  fun a b => inferInstanceAs (Decidable (dv b.date ≤ dv a.date))

instance (dv : FMValue → Int) : IsTotal PostEntry (metaR dv) :=
  ⟨fun a b => Int.le_total (dv b.date) (dv a.date)⟩

instance (dv : FMValue → Int) : IsTrans PostEntry (metaR dv) :=
  ⟨fun _ _ _ h1 h2 => le_trans h2 h1⟩

/-- `updateMetadata`: rebuild the posts array wholesale from the directory's
current markdown files and sort it by date descending.  The file system is
modelled as the directory's (name, content) listing; `Array.prototype.sort`
is modelled as a sort producing a permutation ordered by the comparator. -/
def updateMetadataL (dv : FMValue → Int) (files : List (Chars × Chars)) : List PostEntry :=
  let entries := (files.filter (fun nc => isMdName nc.1)).filterMap
    (fun nc => postEntryOf nc.1 nc.2)
  List.insertionSort (metaR dv) entries

/-- Outcome of `convertFile` of the build script: either the written output
or a `process.exit` (its `catch` block logs and calls `process.exit(1)`). -/
inductive ConvertOutcome where
  | wrote (outPath html : String)
  | exitProc (code : Nat)
  deriving DecidableEq

/-- `convertFile(inputPath, outputPath)`: read, split front matter, convert
through `marked.parse` (abstract `mp`), render the page template (abstract
`render`), write.  A read failure is caught and answered with
`process.exit(1)`. -/
def convertFileM (mp : String → String) (render : List (Chars × FMValue) → String → String)
    (fsRead : String → Option String) (inputPath outputPath : String) : ConvertOutcome :=
  match fsRead inputPath with
  | some md =>
    let fc := parseFrontMatterL (str md)
    .wrote outputPath (render fc.1 (mp (String.mk fc.2)))
  | none => .exitProc 1

/-- Outcome of `convertAllFiles`: `noFiles` (warning, early return),
`completed` (summary printed with the two tallies, normal exit), or
`aborted` (a `process.exit` fired inside the loop: no summary, the
remaining files unprocessed). -/
inductive BatchResult where
  | noFiles
  | completed (converted failed : Nat)
  | aborted (code : Nat) (converted : Nat) (remaining : List String)
  deriving DecidableEq, Repr

/-- The `forEach` loop of `convertAllFiles`.  Its `try`/`catch` cannot catch
anything: `convertFile` never throws (it exits the process instead), so the
`failed` tally can only stay at its initial value. -/
def batchLoop (mp : String → String) (render : List (Chars × FMValue) → String → String)
    (fsRead : String → Option String) (inputDir outputDir : String) :
    List String → Nat → Nat → BatchResult
  | [], conv, fail => .completed conv fail
  | f :: fs, conv, fail =>
    match convertFileM mp render fsRead (inputDir ++ "/" ++ f)
        (outputDir ++ "/" ++ String.mk (htmlNameOf (str f))) with
    | .wrote _ _ => batchLoop mp render fsRead inputDir outputDir fs (conv + 1) fail
    | .exitProc c => .aborted c conv fs

/-- `convertAllFiles(inputDir, outputDir)` over the directory listing. -/
def convertAllFilesM (mp : String → String) (render : List (Chars × FMValue) → String → String)
    (fsRead : String → Option String) (inputDir outputDir : String)
    (listing : List String) : BatchResult :=
  let mdFiles := listing.filter (fun f => isMdName (str f))
  if mdFiles.isEmpty then .noFiles
  else batchLoop mp render fsRead inputDir outputDir mdFiles 0 0

/-- Observable result of one CLI invocation: whether the usage text was
printed and the process exit status (0 = the script ran to completion). -/
structure CliResult where
  usagePrinted : Bool
  exitCode : Nat
  deriving DecidableEq, Repr

/-- `inputPath.replace(/\.md$/, '.html')` on a path string. -/
def replaceMdHtml (p : String) : String := String.mk (htmlNameOf (str p))

/-- The CLI dispatch of the build script (`if (!command) … switch`):
no command (or an empty first argument, equally falsy) prints the usage and
exits 1; `convert`/`build-all`/`update-metadata` check their path argument
with `existsSync` and exit 1 when it is missing; `help` prints the usage and
falls through the `switch` (`break`), so the script terminates normally with
status 0; an unknown command exits 1. -/
def cliMainM (mp : String → String) (render : List (Chars × FMValue) → String → String)
    (fsRead : String → Option String) (fsExists : String → Bool)
    (listing : String → List String) (args : List String) : CliResult :=
  match args with
  | [] => { usagePrinted := true, exitCode := 1 }
  | cmd :: rest =>
    if cmd = "" then { usagePrinted := true, exitCode := 1 }
    else if cmd = "convert" then
      match rest with
      | [] => { usagePrinted := false, exitCode := 1 }
      | inp :: r2 =>
        let outp := match r2 with | o :: _ => o | [] => replaceMdHtml inp
        if fsExists inp then
          match convertFileM mp render fsRead inp outp with
          | .wrote _ _ => { usagePrinted := false, exitCode := 0 }
          | .exitProc c => { usagePrinted := false, exitCode := c }
        else { usagePrinted := false, exitCode := 1 }
    else if cmd = "build-all" then
      let inDir := rest.headD "./posts"
      let outDir := (rest.drop 1).headD "./posts"
      if fsExists inDir then
        match convertAllFilesM mp render fsRead inDir outDir (listing inDir) with
        | .aborted c _ _ => { usagePrinted := false, exitCode := c }
        | _ => { usagePrinted := false, exitCode := 0 }
      else { usagePrinted := false, exitCode := 1 }
    else if cmd = "update-metadata" then
      let dir := rest.headD "./posts"
      if fsExists dir then { usagePrinted := false, exitCode := 0 }
      else { usagePrinted := false, exitCode := 1 }
    else if cmd = "help" then { usagePrinted := true, exitCode := 0 }
    else { usagePrinted := false, exitCode := 1 }

/-! Concrete instantiations used by the evaluation theorems. -/

/-- A demo directory for the batch-failure scenario: `good.md` is readable
and well formed, `bad.md` is unreadable (its read throws). -/
def fsReadDemo : String → Option String := fun p =>
  if p = "posts/good.md" then some "---\ntitle: t\ndate: d\n---\nhi" else none

/-- A demo date valuation (injective on the demo dates). -/
def dvDemo : FMValue → Int
  | .strv s => (s.length : Int)
  | .listv _ => 0

/-- Demo directory listing for the metadata theorems: two posts with
distinct dates and one draft lacking a date. -/
def filesDemo : List (Chars × Chars) :=
  [(str "a.md", str "---\ntitle: Alpha\ndate: 2025-07-22\n---\nbody a"),
   (str "b.md", str "---\ntitle: Beta\ndate: 2024-01\n---\nbody b"),
   (str "c.md", str "---\ntitle: Gamma\n---\nno date")]

def idS : String → String := fun s => s
def renderDemo : List (Chars × FMValue) → String → String := fun _ b => b
def noRead : String → Option String := fun _ => none
def allExists : String → Bool := fun _ => true
def noListing : String → List String := fun _ => []

/-! Proof-side notions used by the statements below. -/

/-- A matcher consumes at least one character on every match (all the
matchers of the rule table do; this justifies the `length + 1` fuel). -/
def Consuming (t : Chars → Option (Chars × Chars)) : Prop :=
  ∀ s p, t s = some p → p.2.length < s.length

/-- A mismatch inside the overlap of a pattern and a text prefix (if one
exists, the pattern cannot match there, whatever follows the prefix). -/
def zipMismatch (p u : Chars) : Bool :=
  (List.zip p u).any (fun q => q.1 != q.2)

/-- The two spellings of a line break accepted by `\r?\n`. -/
def isNlC (n : Chars) : Prop := n = ['\n'] ∨ n = ['\r', '\n']

/-! ## Theorems

General lemmas about the scanners, then the claim theorems. -/

@[simp] theorem startsWithC_nil (s : Chars) : startsWithC [] s = true := rfl

@[simp] theorem startsWithC_cons_nil (p : Char) (ps : Chars) :
    startsWithC (p :: ps) [] = false := rfl

@[simp] theorem startsWithC_cons_cons (p : Char) (ps : Chars) (c : Char) (cs : Chars) :
    startsWithC (p :: ps) (c :: cs) = (p == c && startsWithC ps cs) := rfl

theorem startsWithC_append_self (p r : Chars) : startsWithC p (p ++ r) = true := by
  induction p with
  | nil => rfl
  | cons a ps ih => simp [ih]

theorem eq_append_drop_of_sw {p s : Chars} (h : startsWithC p s = true) :
    s = p ++ s.drop p.length := by
  induction p generalizing s with
  | nil => simp
  | cons a ps ih =>
    cases s with
    | nil => simp at h
    | cons c cs =>
      simp only [startsWithC_cons_cons, Bool.and_eq_true, beq_iff_eq] at h
      obtain ⟨rfl, h2⟩ := h
      simpa using ih h2

theorem sw_exists {p s : Chars} : startsWithC p s = true ↔ ∃ r, s = p ++ r := by
  constructor
  · intro h; exact ⟨s.drop p.length, eq_append_drop_of_sw h⟩
  · rintro ⟨r, rfl⟩; exact startsWithC_append_self p r

theorem sw_append_of_le {p x : Chars} (z : Chars) (h : p.length ≤ x.length) :
    startsWithC p (x ++ z) = startsWithC p x := by
  induction p generalizing x with
  | nil => simp
  | cons a ps ih =>
    cases x with
    | nil => simp at h
    | cons c cs =>
      simp only [List.cons_append, startsWithC_cons_cons]
      rw [ih (by simpa using h)]

theorem sw_false_of_zipMismatch {p u : Chars} (h : zipMismatch p u = true) (z : Chars) :
    startsWithC p (u ++ z) = false := by
  induction p generalizing u with
  | nil => simp [zipMismatch] at h
  | cons a ps ih =>
    cases u with
    | nil => simp [zipMismatch] at h
    | cons c cs =>
      simp only [zipMismatch, List.zip_cons_cons, List.any_cons, Bool.or_eq_true,
        bne_iff_ne, ne_eq] at h
      rcases h with h | h
      · simp [beq_eq_false_iff_ne.mpr h]
      · simp only [List.cons_append, startsWithC_cons_cons]
        rw [ih h]
        simp

theorem suffix_append_cases {u a b : Chars} (h : u <:+ a ++ b) :
    (∃ u', u' <:+ a ∧ u' ≠ [] ∧ u = u' ++ b) ∨ u <:+ b := by
  induction a with
  | nil => right; simpa using h
  | cons c a' ih =>
    rw [List.cons_append] at h
    rcases List.suffix_cons_iff.mp h with h1 | h2
    · left
      exact ⟨c :: a', List.suffix_refl _, by simp, by rw [h1, List.cons_append]⟩
    · rcases ih h2 with ⟨u', h3, h4, h5⟩ | h6
      · left; exact ⟨u', h3.trans (List.suffix_cons c a'), h4, h5⟩
      · right; exact h6

/-! Fuel irrelevance and unfolding rules for the global-replace scanner. -/

theorem scanRepF_congr {t : Chars → Option (Chars × Chars)} (hc : Consuming t) :
    ∀ f g s, s.length < f → s.length < g → scanRepF t f s = scanRepF t g s := by
  intro f
  induction f with
  | zero => intro g s hf _; exact absurd hf (Nat.not_lt_zero _)
  | succ f ih =>
    intro g s hf hg
    cases g with
    | zero => exact absurd hg (Nat.not_lt_zero _)
    | succ g' =>
      cases hm : t s with
      | some p =>
        simp only [scanRepF, hm]
        have hlt := hc s p hm
        rw [ih g' p.2 (by omega) (by omega)]
      | none =>
        cases s with
        | nil => simp [scanRepF, hm]
        | cons c cs =>
          simp only [scanRepF, hm]
          have : cs.length < f := by simp at hf; omega
          have hg' : cs.length < g' := by simp at hg; omega
          rw [ih g' cs this hg']

theorem scanRep_some {t : Chars → Option (Chars × Chars)} (hc : Consuming t)
    {s : Chars} {p : Chars × Chars} (hm : t s = some p) :
    scanRep t s = p.1 ++ scanRep t p.2 := by
  have hlt := hc s p hm
  unfold scanRep
  have h1 : scanRepF t (s.length + 1) s = p.1 ++ scanRepF t s.length p.2 := by
    simp only [scanRepF, hm]
  rw [h1, scanRepF_congr hc s.length (p.2.length + 1) p.2 (by omega) (by omega)]

theorem scanRep_none_cons {t : Chars → Option (Chars × Chars)} {c : Char} {cs : Chars}
    (hm : t (c :: cs) = none) : scanRep t (c :: cs) = c :: scanRep t cs := by
  unfold scanRep
  simp only [List.length_cons, scanRepF, hm]

theorem scanRep_nil {t : Chars → Option (Chars × Chars)} (hm : t [] = none) :
    scanRep t [] = [] := by
  unfold scanRep
  simp [scanRepF, hm]

/-- A scanner leaves the text unchanged when the matcher fails at every
position (that is, on every suffix). -/
theorem scanRep_id {t : Chars → Option (Chars × Chars)} :
    ∀ {s : Chars}, (∀ u, u <:+ s → t u = none) → scanRep t s = s := by
  intro s
  induction s with
  | nil => intro h; exact scanRep_nil (h [] (List.suffix_refl _))
  | cons c cs ih =>
    intro h
    rw [scanRep_none_cons (h _ (List.suffix_refl _))]
    rw [ih (fun u hu => h u (hu.trans (List.suffix_cons _ _)))]

/-! Line splitting. -/

theorem splitL_no_term {s : Chars} (h : ∀ c ∈ s, isLineTerm c = false) :
    splitL s = (s, []) := by
  induction s with
  | nil => rfl
  | cons c cs ih =>
    have hc : isLineTerm c = false := h c (List.mem_cons_self _ _)
    simp only [splitL, ih (fun d hd => h d (List.mem_cons_of_mem _ hd)), hc]
    simp

/-- On terminator-free text a line rule acts on the whole text as one line. -/
theorem mapLines_single {s : Chars} (f : Chars → Chars)
    (h : ∀ c ∈ s, isLineTerm c = false) : mapLines f s = f s := by
  unfold mapLines
  rw [splitL_no_term h]
  simp [joinL]

theorem nlOpt_sound {s r : Chars} (h : nlOpt s = some r) :
    s = '\n' :: r ∨ s = '\r' :: '\n' :: r := by
  cases s with
  | nil => simp [nlOpt] at h
  | cons c cs =>
    by_cases h1 : c = '\n'
    · subst h1
      simp [nlOpt] at h
      subst h
      exact Or.inl rfl
    · by_cases h2 : c = '\r'
      · subst h2
        cases cs with
        | nil => simp [nlOpt] at h
        | cons c2 r2 =>
          by_cases h3 : c2 = '\n'
          · subst h3
            simp [nlOpt] at h
            subst h
            exact Or.inr rfl
          · simp [nlOpt, h3] at h
      · simp [nlOpt, h1, h2] at h

theorem nlOpt_none_of_head {c : Char} {cs : Chars} (h1 : c ≠ '\n') (h2 : c ≠ '\r') :
    nlOpt (c :: cs) = none := by
  simp [nlOpt, h1, h2]

/-! Soundness (decomposition) of the sub-scanners, and the consumption
property of each matcher. -/

theorem findCloseDelim_sound {d : Chars} :
    ∀ {s p}, findCloseDelim d s = some p → s = p.1 ++ (d ++ p.2) := by
  intro s
  induction s with
  | nil => intro p h; simp [findCloseDelim] at h
  | cons c cs ih =>
    intro p h
    simp only [findCloseDelim] at h
    split at h
    · next hsw =>
      injection h with h'
      subst h'
      simpa using eq_append_drop_of_sw hsw
    · split at h
      · exact absurd h (by simp)
      · simp only [Option.map_eq_some'] at h
        obtain ⟨q, hq, rfl⟩ := h
        simp [ih hq]

theorem findCloseCh_sound {stop : Char} :
    ∀ {s p}, findCloseCh stop s = some p → s = p.1 ++ stop :: p.2 := by
  intro s
  induction s with
  | nil => intro p h; simp [findCloseCh] at h
  | cons c cs ih =>
    intro p h
    simp only [findCloseCh] at h
    split at h
    · next hc =>
      injection h with h'
      subst h' hc
      simp
    · simp only [Option.map_eq_some'] at h
      obtain ⟨q, hq, rfl⟩ := h
      simp [ih hq]

theorem fenceTermHead_sound {s r : Chars} (h : fenceTermHead s = some r) :
    ∃ n, isNlC n ∧ s = n ++ (fence3 ++ r) := by
  unfold fenceTermHead at h
  split at h
  · next r1 hn =>
    split at h
    · next hsw =>
      injection h with h'
      subst h'
      have h1 := eq_append_drop_of_sw hsw
      rcases nlOpt_sound hn with h2 | h2
      · exact ⟨['\n'], Or.inl rfl, by rw [h2, h1]; simp [fence3]⟩
      · exact ⟨['\r', '\n'], Or.inr rfl, by rw [h2, h1]; simp [fence3]⟩
    · exact absurd h (by simp)
  · exact absurd h (by simp)

theorem findFenceClose_sound :
    ∀ {s p}, findFenceClose s = some p → ∃ n, isNlC n ∧ s = p.1 ++ (n ++ (fence3 ++ p.2)) := by
  intro s
  induction s with
  | nil => intro p h; simp [findFenceClose] at h
  | cons c cs ih =>
    intro p h
    simp only [findFenceClose] at h
    cases hm : fenceTermHead (c :: cs) with
    | some r =>
      rw [hm] at h
      injection h with h'
      subst h'
      obtain ⟨n, hn, he⟩ := fenceTermHead_sound hm
      exact ⟨n, hn, by simpa using he⟩
    | none =>
      rw [hm] at h
      simp only [Option.map_eq_some'] at h
      obtain ⟨q, hq, rfl⟩ := h
      obtain ⟨n, hn, he⟩ := ih hq
      exact ⟨n, hn, by simp [he]⟩

theorem isNlC_length {n : Chars} (h : isNlC n) : n.length = 1 ∨ n.length = 2 := by
  rcases h with rfl | rfl
  · exact Or.inl rfl
  · exact Or.inr rfl

theorem consuming_matchDelim {d : Chars} (hd : d ≠ []) (mk : Chars → Chars) :
    Consuming (matchDelim d mk) := by
  intro s p h
  unfold matchDelim at h
  split at h
  · next hsw =>
    simp only [Option.map_eq_some'] at h
    obtain ⟨q, hq, rfl⟩ := h
    have h1 := eq_append_drop_of_sw hsw
    have h2 := findCloseDelim_sound hq
    have hlen : s.length = d.length + (q.1.length + (d.length + q.2.length)) := by
      conv =>
        lhs
        rw [h1]
      rw [h2]
      simp
    have hd1 : 0 < d.length := List.length_pos.mpr hd
    simp only []
    omega
  · exact absurd h (by simp)

theorem consuming_matchCode : Consuming matchCode := by
  intro s p h
  cases s with
  | nil => simp [matchCode] at h
  | cons c rest =>
    simp only [matchCode] at h
    split at h
    · split at h
      · next ct r hq =>
        split at h
        · exact absurd h (by simp)
        · injection h with h'
          subst h'
          have hs := findCloseCh_sound hq
          simp only []
          rw [List.length_cons, hs]
          simp
          omega
      · exact absurd h (by simp)
    · exact absurd h (by simp)

theorem linkTail_sound {r1 : Chars} {p : Chars × Chars} (h : linkTail r1 = some p) :
    r1 = '(' :: (p.1 ++ ')' :: p.2) ∧ p.1 ≠ [] := by
  cases r1 with
  | nil => simp [linkTail] at h
  | cons c r2 =>
    simp only [linkTail] at h
    split at h
    · next hc =>
      subst hc
      split at h
      · next tgt r3 hq =>
        split at h
        · exact absurd h (by simp)
        · next hne =>
          injection h with h'
          subst h'
          refine ⟨?_, by simpa using hne⟩
          rw [findCloseCh_sound hq]
      · exact absurd h (by simp)
    · exact absurd h (by simp)

theorem consuming_matchLink : Consuming matchLink := by
  intro s p h
  cases s with
  | nil => simp [matchLink] at h
  | cons c rest =>
    simp only [matchLink] at h
    split at h
    · split at h
      · next txt r1 hq =>
        split at h
        · exact absurd h (by simp)
        · split at h
          · next tgt r3 ht =>
            injection h with h'
            subst h'
            have h1 := findCloseCh_sound hq
            have h2 := (linkTail_sound ht).1
            simp only []
            rw [List.length_cons, h1, h2]
            simp
            omega
          · exact absurd h (by simp)
      · exact absurd h (by simp)
    · exact absurd h (by simp)

theorem consuming_matchImage : Consuming matchImage := by
  intro s p h
  match s with
  | [] => simp [matchImage] at h
  | [c] => simp [matchImage] at h
  | c :: c1 :: r1 =>
    simp only [matchImage] at h
    split at h
    · split at h
      · split at h
        · next alt r2 hq =>
          split at h
          · next tgt r4 ht =>
            injection h with h'
            subst h'
            have h1 := findCloseCh_sound hq
            have h2 := (linkTail_sound ht).1
            simp only []
            rw [List.length_cons, List.length_cons, h1, h2]
            simp
            omega
          · exact absurd h (by simp)
        · exact absurd h (by simp)
      · exact absurd h (by simp)
    · exact absurd h (by simp)

theorem consuming_matchFence : Consuming matchFence := by
  intro s p h
  unfold matchFence at h
  split at h
  · next hsw =>
    split at h
    · next s3 hn =>
      simp only [Option.map_eq_some'] at h
      obtain ⟨q, hq, rfl⟩ := h
      obtain ⟨n, hnl, he⟩ := findFenceClose_sound hq
      rcases nlOpt_sound hn with h2 | h2
      all_goals {
        have h1 := eq_append_drop_of_sw hsw
        have h3le : (3 : Nat) ≤ s.length := by rw [h1]; simp [fence3]
        have hx := congrArg List.length
          (List.takeWhile_append_dropWhile isWordChar (s.drop 3))
        rw [List.length_append] at hx
        have hd2 := congrArg List.length h2
        have hhe := congrArg List.length he
        simp [fence3] at hhe
        simp at hd2
        rcases isNlC_length hnl with h3 | h3 <;>
          · show List.length q.2 < List.length s
            simp [List.length_drop] at hx
            omega
      }
    · exact absurd h (by simp)
  · exact absurd h (by simp)

theorem matchDelim_nil {d0 : Char} {ds : Chars} {mk : Chars → Chars} :
    matchDelim (d0 :: ds) mk [] = none := by
  simp [matchDelim]

theorem matchDelim_cons_ne {d0 : Char} {ds : Chars} {mk : Chars → Chars} {c : Char} {cs : Chars}
    (h : c ≠ d0) : matchDelim (d0 :: ds) mk (c :: cs) = none := by
  have hsw : startsWithC (d0 :: ds) (c :: cs) = false := by
    simp [beq_eq_false_iff_ne, Ne.symm h]
  simp [matchDelim, hsw]

theorem matchDelim_none_of_notMem {d0 : Char} {ds : Chars} {mk : Chars → Chars} {s : Chars}
    (h : d0 ∉ s) : ∀ u, u <:+ s → matchDelim (d0 :: ds) mk u = none := by
  intro u hu
  cases u with
  | nil => exact matchDelim_nil
  | cons c cs =>
    exact matchDelim_cons_ne (fun hc => h (hc ▸ hu.subset (List.mem_cons_self c cs)))

theorem matchCode_none_of_notMem {s : Chars} (h : '`' ∉ s) :
    ∀ u, u <:+ s → matchCode u = none := by
  intro u hu
  cases u with
  | nil => rfl
  | cons c cs =>
    have hc : c ≠ '`' := fun hc => h (hc ▸ hu.subset (List.mem_cons_self c cs))
    simp [matchCode, hc]

theorem matchLink_none_of_notMem {s : Chars} (h : '[' ∉ s) :
    ∀ u, u <:+ s → matchLink u = none := by
  intro u hu
  cases u with
  | nil => rfl
  | cons c cs =>
    have hc : c ≠ '[' := fun hc => h (hc ▸ hu.subset (List.mem_cons_self c cs))
    simp [matchLink, hc]

theorem matchImage_none_of_notMem {s : Chars} (h : '!' ∉ s) :
    ∀ u, u <:+ s → matchImage u = none := by
  intro u hu
  match u with
  | [] => rfl
  | [c] => rfl
  | c :: c1 :: r1 =>
    have hc : c ≠ '!' := fun hc => h (hc ▸ hu.subset (List.mem_cons_self _ _))
    simp [matchImage, hc]

theorem matchFence_none_of_notMem {s : Chars} (h : '`' ∉ s) :
    ∀ u, u <:+ s → matchFence u = none := by
  intro u hu
  cases u with
  | nil => rfl
  | cons c cs =>
    have hc : c ≠ '`' := fun hc => h (hc ▸ hu.subset (List.mem_cons_self c cs))
    have hsw : startsWithC fence3 (c :: cs) = false := by
      simp [fence3, beq_eq_false_iff_ne, Ne.symm hc]
    simp [matchFence, hsw]

theorem consuming_matchUlGap : Consuming matchUlGap := by
  intro s p h
  unfold matchUlGap at h
  split at h
  · next hsw =>
    split at h
    · next hsw2 =>
      injection h with h'
      subst h'
      have h1 := eq_append_drop_of_sw hsw
      have h2 := eq_append_drop_of_sw hsw2
      have hle : ((s.drop 5).dropWhile isWs).length ≤ (s.drop 5).length :=
        (List.dropWhile_suffix isWs).length_le
      have h5 : (5 : Nat) ≤ s.length := by
        rw [h1]; simp [closeUlPat]
      have h4 : (4 : Nat) ≤ ((s.drop 5).dropWhile isWs).length := by
        rw [h2]; simp [openUlPat]
      simp only []
      have hd5 : (s.drop 5).length = s.length - 5 := by simp
      have : (((s.drop 5).dropWhile isWs).drop 4).length =
          ((s.drop 5).dropWhile isWs).length - 4 := by simp
      omega
    · exact absurd h (by simp)
  · exact absurd h (by simp)

/-! Rule-level identity lemmas: a scanner leaves text without its marker
character unchanged. -/

theorem ruleEm3_id {s : Chars} (h : '*' ∉ s) : ruleEm3 s = s :=
  scanRep_id (fun u hu => matchDelim_none_of_notMem h u hu)

theorem ruleEm2_id {s : Chars} (h : '*' ∉ s) : ruleEm2 s = s :=
  scanRep_id (fun u hu => matchDelim_none_of_notMem h u hu)

theorem ruleEm1_id {s : Chars} (h : '*' ∉ s) : ruleEm1 s = s :=
  scanRep_id (fun u hu => matchDelim_none_of_notMem h u hu)

theorem ruleCode_id {s : Chars} (h : '`' ∉ s) : ruleCode s = s :=
  scanRep_id (matchCode_none_of_notMem h)

theorem ruleLink_id {s : Chars} (h : '[' ∉ s) : ruleLink s = s :=
  scanRep_id (matchLink_none_of_notMem h)

theorem ruleImage_id {s : Chars} (h : '!' ∉ s) : ruleImage s = s :=
  scanRep_id (matchImage_none_of_notMem h)

theorem ruleFence_id {s : Chars} (h : '`' ∉ s) : ruleFence s = s :=
  scanRep_id (matchFence_none_of_notMem h)

/-! Emphasis computation: the exact effect of a delimiter rule on
`delim ++ content ++ delim` when the content contains no delimiter head and
no line terminator. -/

theorem findCloseDelim_clean (d0 : Char) (ds : Chars) {s r : Chars}
    (hs : ∀ c ∈ s, c ≠ d0 ∧ c ≠ '\n' ∧ c ≠ '\r') :
    findCloseDelim (d0 :: ds) (s ++ ((d0 :: ds) ++ r)) = some (s, r) := by
  induction s with
  | nil =>
    have hsw : startsWithC (d0 :: ds) ((d0 :: ds) ++ r) = true := startsWithC_append_self _ _
    rw [List.nil_append, show (d0 :: ds) ++ r = d0 :: (ds ++ r) from rfl]
    simp only [findCloseDelim]
    rw [show d0 :: (ds ++ r) = (d0 :: ds) ++ r from rfl, if_pos hsw, List.drop_left]
  | cons c cs ih =>
    have hc := hs c (List.mem_cons_self c cs)
    have hsw : startsWithC (d0 :: ds) (c :: (cs ++ ((d0 :: ds) ++ r))) = false := by
      simp [beq_eq_false_iff_ne, Ne.symm hc.1]
    rw [List.cons_append]
    simp only [findCloseDelim]
    rw [hsw]
    simp only [Bool.false_eq_true, if_false]
    rw [if_neg (by simp [hc.2.1, hc.2.2])]
    rw [ih (fun x hx => hs x (List.mem_cons_of_mem c hx))]
    rfl

theorem matchDelim_exact (d0 : Char) (ds : Chars) (mk : Chars → Chars) {s r : Chars}
    (hs : ∀ c ∈ s, c ≠ d0 ∧ c ≠ '\n' ∧ c ≠ '\r') :
    matchDelim (d0 :: ds) mk ((d0 :: ds) ++ (s ++ ((d0 :: ds) ++ r))) = some (mk s, r) := by
  unfold matchDelim
  rw [if_pos (startsWithC_append_self _ _), List.drop_left,
    findCloseDelim_clean d0 ds hs]
  rfl

/-- Effect of a whole emphasis rule on one clean span. -/
theorem ruleDelim_span (d0 : Char) (ds : Chars) (mk : Chars → Chars) {s : Chars}
    (hs : ∀ c ∈ s, c ≠ d0 ∧ c ≠ '\n' ∧ c ≠ '\r') :
    scanRep (matchDelim (d0 :: ds) mk) ((d0 :: ds) ++ (s ++ (d0 :: ds))) = mk s := by
  have hm := matchDelim_exact d0 ds mk (r := []) hs
  rw [List.append_nil] at hm
  rw [scanRep_some (consuming_matchDelim (by simp) mk) hm]
  rw [scanRep_nil matchDelim_nil, List.append_nil]

/-! Skipping a longer star delimiter over a shorter star span: the triple
rule does not fire anywhere inside `**x**` or `*x*`, and the double rule
does not fire inside `*x*`. -/

theorem sw_starRun_false {n k : Nat} (hk : k < n) {c : Char} (hc : c ≠ '*') (z : Chars) :
    startsWithC (List.replicate n '*') (List.replicate k '*' ++ (c :: z)) = false := by
  induction k generalizing n with
  | zero =>
    cases n with
    | zero => omega
    | succ n' =>
      simp only [List.replicate_succ, List.replicate_zero, List.nil_append,
        startsWithC_cons_cons]
      simp [beq_eq_false_iff_ne, Ne.symm hc]
  | succ k' ih =>
    cases n with
    | zero => omega
    | succ n' =>
      simp only [List.replicate_succ, List.cons_append, startsWithC_cons_cons]
      rw [ih (by omega)]
      simp

theorem sw_starRun_short {n j : Nat} (hj : j < n) :
    startsWithC (List.replicate n '*') (List.replicate j '*') = false := by
  induction j generalizing n with
  | zero =>
    cases n with
    | zero => omega
    | succ n' => simp [List.replicate_succ]
  | succ j' ih =>
    cases n with
    | zero => omega
    | succ n' =>
      simp only [List.replicate_succ, startsWithC_cons_cons]
      rw [ih (by omega)]
      simp

theorem suffix_replicate {u : Chars} {m : Nat} {c : Char}
    (h : u <:+ List.replicate m c) : u = List.replicate u.length c ∧ u.length ≤ m := by
  constructor
  · exact List.eq_replicate_of_mem
      (fun b hb => List.eq_of_mem_replicate (h.subset hb))
  · simpa using h.length_le

theorem matchDelim_star_skip {n m : Nat} (hmn : m < n) (mk : Chars → Chars) {s : Chars}
    (hs0 : s ≠ []) (hstar : '*' ∉ s) :
    ∀ u, u <:+ (List.replicate m '*' ++ (s ++ List.replicate m '*')) →
      matchDelim (List.replicate n '*') mk u = none := by
  intro u hu
  have hsw : startsWithC (List.replicate n '*') u = false := by
    rcases suffix_append_cases hu with ⟨u', hu', hne, rfl⟩ | h2
    · obtain ⟨hrep, hle⟩ := suffix_replicate hu'
      rw [hrep]
      cases s with
      | nil => exact absurd rfl hs0
      | cons c cs =>
        have hc : c ≠ '*' := fun hq => hstar (hq ▸ List.mem_cons_self c cs)
        rw [show ((c :: cs) ++ List.replicate m '*') = c :: (cs ++ List.replicate m '*')
          from rfl]
        exact sw_starRun_false (by omega) hc _
    · rcases suffix_append_cases h2 with ⟨w', hw', hne', rfl⟩ | h3
      · cases w' with
        | nil => exact absurd rfl hne'
        | cons c cs =>
          have hc : c ≠ '*' := fun hq => hstar (hq ▸ hw'.subset (List.mem_cons_self c cs))
          cases n with
          | zero => omega
          | succ n' =>
            rw [List.replicate_succ, List.cons_append, startsWithC_cons_cons]
            simp [beq_eq_false_iff_ne, Ne.symm hc]
      · obtain ⟨hrep, hle⟩ := suffix_replicate h3
        rw [hrep]
        exact sw_starRun_short (by omega)
  cases n with
  | zero => omega
  | succ n' =>
    rw [List.replicate_succ] at hsw ⊢
    unfold matchDelim
    rw [hsw]
    simp

/-! Suffix analysis of a text of the shape `A ++ (w ++ B)` with closed ends
`A`, `B` and a middle `w` drawn from a character class `P`: a pattern whose
overlap with every nonempty suffix of `A` has a mismatch, whose head is
outside `P`, and which starts no suffix of `B`, starts no suffix of the
whole text. -/

theorem sw_false_three_part {pat A w B : Chars} {P : Char → Bool}
    (hpat : ∃ p0 pr, pat = p0 :: pr ∧ ∀ c, P c = true → c ≠ p0)
    (hA : ∀ u', u' <:+ A → u' ≠ [] → zipMismatch pat u' = true)
    (hw : ∀ c ∈ w, P c = true)
    (hB : ∀ u, u <:+ B → startsWithC pat u = false) :
    ∀ u, u <:+ (A ++ (w ++ B)) → startsWithC pat u = false := by
  intro u hu
  rcases suffix_append_cases hu with ⟨u', hu', hne, rfl⟩ | h2
  · exact sw_false_of_zipMismatch (hA u' hu' hne) _
  · rcases suffix_append_cases h2 with ⟨w', hw', hne', rfl⟩ | h3
    · obtain ⟨p0, pr, rfl, hP⟩ := hpat
      cases w' with
      | nil => exact absurd rfl hne'
      | cons c cs =>
        have hc : c ≠ p0 := hP c (hw c (hw'.subset (List.mem_cons_self c cs)))
        rw [List.cons_append, startsWithC_cons_cons]
        simp [beq_eq_false_iff_ne, Ne.symm hc]
    · exact hB u h3

theorem tails_all_to_suffix {A : Chars} {f : Chars → Bool} (h : A.tails.all f = true) :
    ∀ u, u <:+ A → f u = true := by
  intro u hu
  rw [List.all_eq_true] at h
  exact h u ((List.mem_tails u A).mpr hu)

theorem notMem_three {A w B : Chars} {x : Char} (hA : x ∉ A) (hw : x ∉ w) (hB : x ∉ B) :
    x ∉ A ++ (w ++ B) := by
  intro h
  rcases List.mem_append.mp h with h1 | h2
  · exact hA h1
  · rcases List.mem_append.mp h2 with h3 | h4
    · exact hw h3
    · exact hB h4

/-! Paragraph splitting and trimming on simple shapes. -/

theorem paraSepHead_none {c : Char} {cs : Chars} (h1 : c ≠ '\n') (h2 : c ≠ '\r') :
    paraSepHead (c :: cs) = none := by
  simp [paraSepHead, nlOpt_none_of_head h1 h2]

theorem paraSplitF_no_term :
    ∀ (f : Nat) (s : Chars), s.length < f → (∀ c ∈ s, isLineTerm c = false) →
      paraSplitF f s = [s] := by
  intro f
  induction f with
  | zero => intro s h _; exact absurd h (Nat.not_lt_zero _)
  | succ f ih =>
    intro s hf hterm
    cases s with
    | nil => rfl
    | cons c cs =>
      have hc := hterm c (List.mem_cons_self c cs)
      simp only [isLineTerm, Bool.or_eq_false_iff, decide_eq_false_iff_not] at hc
      simp only [paraSplitF, paraSepHead_none hc.1 hc.2]
      rw [ih cs (by simp at hf; omega) (fun x hx => hterm x (List.mem_cons_of_mem c hx))]

theorem paraSplit_no_term {s : Chars} (h : ∀ c ∈ s, isLineTerm c = false) :
    paraSplit s = [s] :=
  paraSplitF_no_term _ s (Nat.lt_succ_self _) h

theorem trimChars_id_shape {a b : Char} (m : Chars) (ha : isWs a = false)
    (hb : isWs b = false) : trimChars (a :: (m ++ [b])) = a :: (m ++ [b]) := by
  unfold trimChars
  rw [List.dropWhile_cons, ha]
  simp only [Bool.false_eq_true, if_false]
  rw [List.reverse_cons, List.reverse_append]
  simp only [List.reverse_cons, List.reverse_nil, List.nil_append, List.cons_append]
  rw [List.dropWhile_cons, hb]
  simp only [Bool.false_eq_true, if_false]
  rw [List.reverse_cons, List.reverse_append, List.reverse_reverse]
  simp

theorem dropWhile_all_head {ws z : Chars} {c : Char} (hws : ∀ x ∈ ws, isWs x = true)
    (hc : isWs c = false) : (ws ++ (c :: z)).dropWhile isWs = c :: z := by
  induction ws with
  | nil =>
    rw [List.nil_append, List.dropWhile_cons, hc]
    simp
  | cons a as ih =>
    rw [List.cons_append, List.dropWhile_cons, hws a (List.mem_cons_self a as)]
    simp only [if_true]
    exact ih (fun x hx => hws x (List.mem_cons_of_mem a hx))

/-! ### Claim theorems -/

/-- C9: for the empty string (the only falsy string input), `parseMarkdown`
returns the empty string without applying any rule or paragraph wrapping
(the `if (!markdown) return ''` guard). -/
theorem parseMarkdown_empty : parseMarkdownL [] = [] := rfl

/-- C1 (code evaluated at the failing input): batch conversion over a
directory whose first markdown file is unreadable aborts the whole process
with exit status 1 — `convertFile`'s `catch` calls `process.exit(1)` — so
the remaining documents are not processed, no summary is printed, and the
`failed` tally never moves; a directory of readable files completes with a
summary of 1 success / 0 failures.  This holds for every markdown library
behaviour `mp` and page template `render`. -/
theorem convertAllFiles_batch_failure_aborts :
    ∀ (mp : String → String) (render : List (Chars × FMValue) → String → String),
      convertAllFilesM mp render fsReadDemo "posts" "posts" ["bad.md", "good.md"] =
        .aborted 1 0 ["good.md"] ∧
      convertAllFilesM mp render fsReadDemo "posts" "posts" ["good.md"] =
        .completed 1 0 := by
  intro mp render
  exact ⟨rfl, rfl⟩

/-- C5 (counterexample): the `help` command prints the usage text but the
process terminates with exit status 0 (the `case 'help'` arm ends in
`break`, not `process.exit`), contradicting the claim that `help` exits
with a non-zero status. -/
theorem cli_help_exits_zero :
    (cliMainM idS renderDemo noRead allExists noListing ["help"]).exitCode = 0 ∧
    (cliMainM idS renderDemo noRead allExists noListing ["help"]).usagePrinted = true := by
  exact ⟨rfl, rfl⟩

/-- C5 (amended): invoking the CLI with no arguments prints the usage text
and exits with the non-zero status 1; invoking it with `help` prints the
usage text and the script runs to completion, so the process exits with
status 0. -/
theorem cli_usage_exit_codes :
    ∀ (mp : String → String) (render : List (Chars × FMValue) → String → String)
      (fsRead : String → Option String) (fsExists : String → Bool)
      (listing : String → List String),
      cliMainM mp render fsRead fsExists listing [] =
        { usagePrinted := true, exitCode := 1 } ∧
      cliMainM mp render fsRead fsExists listing ["help"] =
        { usagePrinted := true, exitCode := 0 } := by
  intro mp render fsRead fsExists listing
  exact ⟨rfl, rfl⟩

/-- C3 (counterexample): a double-quoted bracketed value has one quote
layer stripped and is then parsed by the list rule — the two `if`s are
sequential, not exclusive — so `"[a, b]"` becomes the list `[a, b]`, not
the plain scalar string `[a, b]` the claim requires. -/
theorem quoted_bracket_value_parsed_as_list :
    normalizeFMValue (str "\"[a, b]\"") = .listv [str "a", str "b"] ∧
    FMValue.listv [str "a", str "b"] ≠ FMValue.strv (str "[a, b]") := by
  exact ⟨by decide, by decide⟩

/-- C3 (amended): front-matter value normalisation is applied in sequence:
one layer of double quotes is stripped first when present, and then the
(possibly unquoted) result is parsed as an ordered list whenever it is
bracketed — also when it was quoted; only a non-bracketed result is stored
as a plain scalar.  `["a", "b", "c"]` extracts to the sequence a, b, c. -/
theorem value_normalization_sequential :
    ∀ v : Chars,
      (isQuotedWrap v = true → isBracketed (sliceEnds v) = false →
        normalizeFMValue v = .strv (sliceEnds v)) ∧
      (isQuotedWrap v = true → isBracketed (sliceEnds v) = true →
        normalizeFMValue v = .listv (parseListItems (sliceEnds v))) ∧
      (isQuotedWrap v = false → isBracketed v = true →
        normalizeFMValue v = .listv (parseListItems v)) ∧
      (isQuotedWrap v = false → isBracketed v = false →
        normalizeFMValue v = .strv v) ∧
      normalizeFMValue (str "[\"a\", \"b\", \"c\"]") =
        .listv [str "a", str "b", str "c"] := by
  intro v
  refine ⟨?_, ?_, ?_, ?_, by decide⟩ <;>
    intro h1 h2 <;> simp [normalizeFMValue, h1, h2]

theorem value_normalization_sequential_witness :
    normalizeFMValue (str "\"[x]\"") = .listv [str "x"] :=
  (value_normalization_sequential (str "\"[x]\"")).2.1 (by decide) (by decide)

/-- C2 (counterexample): the source `- a` produces the single candidate
`<li>a</li>`, which starts with the list-item tag and is therefore left
unwrapped: the output contains a list item but no `<ul>` container,
refuting "every candidate containing list-item elements is wrapped in a
list container". -/
theorem li_candidate_not_wrapped :
    parseMarkdownL (str "- a") = str "<li>a</li>" ∧
    hasSub (str "<li>") (parseMarkdownL (str "- a")) = true ∧
    hasSub (str "<ul>") (parseMarkdownL (str "- a")) = false := by
  exact ⟨by decide, by decide, by decide⟩

/-- C4 (counterexample): emphasis markers inside a fenced code block
survive `escapeHtml` (which escapes only `&<>"'`) and are rewritten by the
later double-asterisk rule, so the code content IS further transformed:
` ```\n**x**\n``` ` renders with a `<strong>` element inside the
`<pre><code>` block. -/
theorem fence_content_emphasis_transformed :
    parseMarkdownL (str "```\n**x**\n```") =
      str "<pre><code><strong>x</strong></code></pre>" ∧
    hasSub (str "<strong>") (parseMarkdownL (str "```\n**x**\n```")) = true := by
  exact ⟨by decide, by decide⟩

/-! Soundness of the front-matter match: a successful match exhibits the
delimiter-pair decomposition of the input. -/

theorem fmSep_sound {s r : Chars} (h : fmSep s = some r) :
    ∃ n1 n2, isNlC n1 ∧ isNlC n2 ∧ s = n1 ++ (dash3 ++ (n2 ++ r)) := by
  unfold fmSep at h
  split at h
  · next r1 hn =>
    split at h
    · next hsw =>
      have h1 := eq_append_drop_of_sw hsw
      rcases nlOpt_sound h with h2 | h2 <;> rcases nlOpt_sound hn with h3 | h3
      · exact ⟨['\n'], ['\n'], Or.inl rfl, Or.inl rfl, by
          rw [h3, h1, show (dash3 : Chars).length = 3 from rfl, h2]; simp [dash3]⟩
      · exact ⟨['\r', '\n'], ['\n'], Or.inr rfl, Or.inl rfl, by
          rw [h3, h1, show (dash3 : Chars).length = 3 from rfl, h2]; simp [dash3]⟩
      · exact ⟨['\n'], ['\r', '\n'], Or.inl rfl, Or.inr rfl, by
          rw [h3, h1, show (dash3 : Chars).length = 3 from rfl, h2]; simp [dash3]⟩
      · exact ⟨['\r', '\n'], ['\r', '\n'], Or.inr rfl, Or.inr rfl, by
          rw [h3, h1, show (dash3 : Chars).length = 3 from rfl, h2]; simp [dash3]⟩
    · exact absurd h (by simp)
  · exact absurd h (by simp)

theorem findFmClose_sound :
    ∀ {s p}, findFmClose s = some p →
      ∃ n1 n2, isNlC n1 ∧ isNlC n2 ∧ s = p.1 ++ (n1 ++ (dash3 ++ (n2 ++ p.2))) := by
  intro s
  induction s with
  | nil => intro p h; simp [findFmClose] at h
  | cons c cs ih =>
    intro p h
    simp only [findFmClose] at h
    split at h
    · next rest hsep =>
      injection h with h'
      subst h'
      obtain ⟨n1, n2, hn1, hn2, he⟩ := fmSep_sound hsep
      exact ⟨n1, n2, hn1, hn2, by simpa using he⟩
    · simp only [Option.map_eq_some'] at h
      obtain ⟨q, hq, rfl⟩ := h
      obtain ⟨n1, n2, hn1, hn2, he⟩ := ih hq
      exact ⟨n1, n2, hn1, hn2, by simp [he]⟩

theorem fmMatch_sound {content : Chars} {p : Chars × Chars}
    (h : fmMatch content = some p) :
    ∃ n1 n2 n3, isNlC n1 ∧ isNlC n2 ∧ isNlC n3 ∧
      content = dash3 ++ (n1 ++ (p.1 ++ (n2 ++ (dash3 ++ (n3 ++ p.2))))) := by
  unfold fmMatch at h
  split at h
  · next hsw =>
    split at h
    · next afterOpen hn =>
      obtain ⟨n2, n3, hn2, hn3, he⟩ := findFmClose_sound h
      have h1 := eq_append_drop_of_sw hsw
      rcases nlOpt_sound hn with h2 | h2
      · exact ⟨['\n'], n2, n3, Or.inl rfl, hn2, hn3, by
          rw [h1, show (dash3 : Chars).length = 3 from rfl, h2, he]; rfl⟩
      · exact ⟨['\r', '\n'], n2, n3, Or.inr rfl, hn2, hn3, by
          rw [h1, show (dash3 : Chars).length = 3 from rfl, h2, he]; rfl⟩
    · exact absurd h (by simp)
  · exact absurd h (by simp)

/-- C7: an input that does not begin with a complete front-matter delimiter
pair (`---` line … `---` line, with `\r?\n` line breaks) at its very start
is returned untouched: `parseFrontMatter` yields the empty record and the
whole input as the body.  Being a total function of the model, it raises
nothing on malformed front matter. -/
theorem no_front_matter_passthrough (content : Chars)
    (h : ¬ ∃ (blk body n1 n2 n3 : Chars), isNlC n1 ∧ isNlC n2 ∧ isNlC n3 ∧
      content = dash3 ++ (n1 ++ (blk ++ (n2 ++ (dash3 ++ (n3 ++ body)))))) :
    parseFrontMatterL content = ([], content) := by
  unfold parseFrontMatterL
  cases hm : fmMatch content with
  | none => rfl
  | some p =>
    exfalso
    obtain ⟨n1, n2, n3, hn1, hn2, hn3, he⟩ := fmMatch_sound hm
    exact h ⟨p.1, p.2, n1, n2, n3, hn1, hn2, hn3, he⟩

theorem no_front_matter_passthrough_witness :
    parseFrontMatterL (str "hello") = ([], str "hello") := by
  apply no_front_matter_passthrough
  rintro ⟨blk, body, n1, n2, n3, hn1, hn2, hn3, he⟩
  rcases hn1 with rfl | rfl <;> simp [dash3, str] at he

/-- The truthiness encoded into an entry by `postEntryOf`: an entry is only
ever pushed when both looked-up fields were truthy, and those very values
become the entry's `title` and `date`. -/
theorem postEntryOf_truthy {n c : Chars} {e : PostEntry} (h : postEntryOf n c = some e) :
    truthyV e.title = true ∧ truthyV e.date = true := by
  unfold postEntryOf at h
  split at h
  · next t d ht hd =>
    split at h
    · next hcond =>
      injection h with h'
      subst h'
      simp only [Bool.and_eq_true] at hcond
      exact ⟨hcond.1, hcond.2⟩
    · exact absurd h (by simp)
  · exact absurd h (by simp)

/-- C8: `update-metadata` regenerates the index wholesale: the resulting
posts array is ordered descending under the date valuation `dv` of the sort
comparator (strictly descending when the entry dates are pairwise
distinct under `dv`), and every entry of the regenerated index stems from a
markdown file present in the current directory listing — so an entry whose
source document no longer exists cannot appear. -/
theorem update_metadata_sorted_and_current (dv : FMValue → Int)
    (files : List (Chars × Chars)) :
    List.Pairwise (metaR dv) (updateMetadataL dv files) ∧
    (∀ e ∈ updateMetadataL dv files,
      ∃ nc, nc ∈ files ∧ isMdName nc.1 = true ∧ postEntryOf nc.1 nc.2 = some e) ∧
    (List.Pairwise (fun a b : PostEntry => dv a.date ≠ dv b.date)
        (updateMetadataL dv files) →
      List.Pairwise (fun a b : PostEntry => dv b.date < dv a.date)
        (updateMetadataL dv files)) := by
  have hsorted : List.Pairwise (metaR dv) (updateMetadataL dv files) := by
    have := List.sorted_insertionSort (metaR dv)
      ((files.filter (fun nc => isMdName nc.1)).filterMap (fun nc => postEntryOf nc.1 nc.2))
    exact this
  refine ⟨hsorted, ?_, ?_⟩
  · intro e he
    have hperm := List.perm_insertionSort (metaR dv)
      ((files.filter (fun nc => isMdName nc.1)).filterMap (fun nc => postEntryOf nc.1 nc.2))
    have hmem : e ∈ (files.filter (fun nc => isMdName nc.1)).filterMap
        (fun nc => postEntryOf nc.1 nc.2) := hperm.mem_iff.mp he
    obtain ⟨nc, hnc, heq⟩ := List.mem_filterMap.mp hmem
    obtain ⟨hin, hmd⟩ := List.mem_filter.mp hnc
    exact ⟨nc, hin, hmd, heq⟩
  · intro hne
    exact (hsorted.and hne).imp
      (fun hab => lt_of_le_of_ne hab.1 (fun hc => hab.2 hc.symm))

theorem update_metadata_sorted_and_current_witness :
    List.Pairwise (fun a b : PostEntry => dvDemo b.date < dvDemo a.date)
      (updateMetadataL dvDemo filesDemo) :=
  (update_metadata_sorted_and_current dvDemo filesDemo).2.2 (by decide)

/-- C10: an entry appears in the regenerated index exactly for the current
markdown files whose parsed front matter has a truthy `title` and a truthy
`date` (a single missing or empty field silently omits the file), and
consequently every entry of the index carries a truthy (non-empty) title
and date. -/
theorem metadata_entry_iff_truthy_title_date (dv : FMValue → Int)
    (files : List (Chars × Chars)) :
    (∀ e, e ∈ updateMetadataL dv files ↔
      ∃ nc, nc ∈ files ∧ isMdName nc.1 = true ∧ postEntryOf nc.1 nc.2 = some e) ∧
    (∀ name content : Chars,
      (postEntryOf name content).isSome =
        (truthyOpt (fmLookup (parseFrontMatterL content).1 (str "title")) &&
         truthyOpt (fmLookup (parseFrontMatterL content).1 (str "date")))) ∧
    (∀ e ∈ updateMetadataL dv files, truthyV e.title = true ∧ truthyV e.date = true) := by
  have hperm := List.perm_insertionSort (metaR dv)
    ((files.filter (fun nc => isMdName nc.1)).filterMap (fun nc => postEntryOf nc.1 nc.2))
  have hmem : ∀ e, e ∈ updateMetadataL dv files ↔
      ∃ nc, nc ∈ files ∧ isMdName nc.1 = true ∧ postEntryOf nc.1 nc.2 = some e := by
    intro e
    constructor
    · intro he
      obtain ⟨nc, hnc, heq⟩ := List.mem_filterMap.mp (hperm.mem_iff.mp he)
      obtain ⟨hin, hmd⟩ := List.mem_filter.mp hnc
      exact ⟨nc, hin, hmd, heq⟩
    · rintro ⟨nc, hin, hmd, heq⟩
      exact hperm.mem_iff.mpr
        (List.mem_filterMap.mpr ⟨nc, List.mem_filter.mpr ⟨hin, hmd⟩, heq⟩)
  refine ⟨hmem, ?_, ?_⟩
  · intro name content
    unfold postEntryOf
    cases ht : fmLookup (parseFrontMatterL content).1 (str "title") with
    | none => simp [ht, truthyOpt]
    | some t =>
      cases hd : fmLookup (parseFrontMatterL content).1 (str "date") with
      | none => simp [ht, hd, truthyOpt]
      | some d =>
        simp only [ht, hd, truthyOpt]
        cases hc : truthyV t && truthyV d <;> simp [hc]
  · intro e he
    obtain ⟨nc, _, _, heq⟩ := (hmem e).mp he
    exact postEntryOf_truthy heq

theorem metadata_entry_iff_truthy_title_date_witness :
    truthyV ((updateMetadataL dvDemo filesDemo).headD default).title = true ∧
    truthyV ((updateMetadataL dvDemo filesDemo).headD default).date = true :=
  (metadata_entry_iff_truthy_title_date dvDemo filesDemo).2.2 _ (by decide)

/-! Per-line rules leave a single line unchanged when its head mismatches
each pattern. -/

theorem lineRules_id_shape {A z : Chars}
    (hterm : ∀ c ∈ A ++ z, isLineTerm c = false)
    (hm4 : zipMismatch h4Pat A = true) (hm3 : zipMismatch h3Pat A = true)
    (hm2 : zipMismatch h2Pat A = true) (hm1 : zipMismatch h1Pat A = true)
    (hmhr : zipMismatch dash3 A = true) (hmli : zipMismatch liPat A = true)
    (hmbq : zipMismatch bqPat A = true) :
    ruleH4 (A ++ z) = A ++ z ∧ ruleH3 (A ++ z) = A ++ z ∧ ruleH2 (A ++ z) = A ++ z ∧
    ruleH1 (A ++ z) = A ++ z ∧ ruleHr (A ++ z) = A ++ z ∧ ruleLi (A ++ z) = A ++ z ∧
    ruleBq (A ++ z) = A ++ z := by
  refine ⟨?_, ?_, ?_, ?_, ?_, ?_, ?_⟩
  · unfold ruleH4
    rw [mapLines_single _ hterm]
    unfold h4Line
    rw [if_neg (by simp [sw_false_of_zipMismatch hm4])]
  · unfold ruleH3
    rw [mapLines_single _ hterm]
    unfold h3Line
    rw [if_neg (by simp [sw_false_of_zipMismatch hm3])]
  · unfold ruleH2
    rw [mapLines_single _ hterm]
    unfold h2Line
    rw [if_neg (by simp [sw_false_of_zipMismatch hm2])]
  · unfold ruleH1
    rw [mapLines_single _ hterm]
    unfold h1Line
    rw [if_neg (by simp [sw_false_of_zipMismatch hm1])]
  · unfold ruleHr
    rw [mapLines_single _ hterm]
    unfold hrLine
    rw [if_neg]
    intro he
    have hfalse := sw_false_of_zipMismatch hmhr z
    rw [he] at hfalse
    have htrue : startsWithC dash3 dash3 = true := by
      have := startsWithC_append_self dash3 []
      simpa using this
    rw [htrue] at hfalse
    exact absurd hfalse (by simp)
  · unfold ruleLi
    rw [mapLines_single _ hterm]
    unfold liLine
    rw [if_neg (by simp [sw_false_of_zipMismatch hmli])]
  · unfold ruleBq
    rw [mapLines_single _ hterm]
    unfold bqLine
    rw [if_neg (by simp [sw_false_of_zipMismatch hmbq])]

theorem matchImage_none_no_lbrack {s : Chars} (h : '[' ∉ s) :
    ∀ u, u <:+ s → matchImage u = none := by
  intro u hu
  match u with
  | [] => rfl
  | [c] => rfl
  | c :: c1 :: r1 =>
    have hc1 : c1 ≠ '[' := fun hq =>
      h (hq ▸ hu.subset (List.mem_cons_of_mem c (List.mem_cons_self c1 r1)))
    simp [matchImage, hc1]

theorem matchUlGap_none_of_nsw {u : Chars} (h : startsWithC closeUlPat u = false) :
    matchUlGap u = none := by
  simp [matchUlGap, h]

theorem forall_mem_three {A w B : Chars} {Q : Char → Prop}
    (hA : ∀ c ∈ A, Q c) (hw : ∀ c ∈ w, Q c) (hB : ∀ c ∈ B, Q c) :
    ∀ c ∈ A ++ (w ++ B), Q c := by
  intro c hc
  rcases List.mem_append.mp hc with h1 | h2
  · exact hA c h1
  · rcases List.mem_append.mp h2 with h3 | h4
    · exact hw c h3
    · exact hB c h4

/-- C6: the emphasis rules fire triple-asterisk before double-asterisk
before single-asterisk, each consuming its whole non-greedy same-line span:
for any same-line span content `s` free of asterisks, backticks and opening
brackets, `***s***` becomes a bold element wrapping an italic element
(never two independent unmatched asterisk emphases), `**s**` becomes bold
only, and `*s*` becomes italic only — through the entire rule pipeline. -/
theorem emphasis_rule_order (s : Chars) (hne : s ≠ [])
    (hs : ∀ c ∈ s, c ≠ '*' ∧ c ≠ '\n' ∧ c ≠ '\r' ∧ c ≠ '`' ∧ c ≠ '[') :
    applyRulesL (star3 ++ (s ++ star3)) =
      str "<strong><em>" ++ (s ++ str "</em></strong>") ∧
    applyRulesL (star2 ++ (s ++ star2)) = str "<strong>" ++ (s ++ str "</strong>") ∧
    applyRulesL (star1 ++ (s ++ star1)) = str "<em>" ++ (s ++ str "</em>") := by
  have hstar : '*' ∉ s := fun hm => (hs '*' hm).1 rfl
  have htick : '`' ∉ s := fun hm => (hs '`' hm).2.2.2.1 rfl
  have hlb : '[' ∉ s := fun hm => (hs '[' hm).2.2.2.2 rfl
  have hterm_s : ∀ c ∈ s, isLineTerm c = false := fun c hc => by
    simp [isLineTerm, (hs c hc).2.1, (hs c hc).2.2.1]
  have hs' : ∀ c ∈ s, c ≠ '*' ∧ c ≠ '\n' ∧ c ≠ '\r' :=
    fun c hc => ⟨(hs c hc).1, (hs c hc).2.1, (hs c hc).2.2.1⟩
  refine ⟨?_, ?_, ?_⟩
  · -- triple-asterisk span
    have htermI : ∀ c ∈ star3 ++ (s ++ star3), isLineTerm c = false :=
      forall_mem_three (by decide) hterm_s (by decide)
    have hF : ruleFence (star3 ++ (s ++ star3)) = star3 ++ (s ++ star3) :=
      ruleFence_id (notMem_three (by decide) htick (by decide))
    have hH := lineRules_id_shape (A := star3) (z := s ++ star3) htermI
      (by decide) (by decide) (by decide) (by decide) (by decide) (by decide) (by decide)
    have hE3 : ruleEm3 (star3 ++ (s ++ star3)) = mkEm3 s :=
      ruleDelim_span '*' ['*', '*'] mkEm3 hs'
    have hT3 : mkEm3 s = str "<strong><em>" ++ (s ++ str "</em></strong>") := by
      unfold mkEm3
      rw [List.append_assoc]
    have hnostar : '*' ∉ str "<strong><em>" ++ (s ++ str "</em></strong>") :=
      notMem_three (by decide) hstar (by decide)
    have hnotick : '`' ∉ str "<strong><em>" ++ (s ++ str "</em></strong>") :=
      notMem_three (by decide) htick (by decide)
    have hnolb : '[' ∉ str "<strong><em>" ++ (s ++ str "</em></strong>") :=
      notMem_three (by decide) hlb (by decide)
    have htermT : ∀ c ∈ str "<strong><em>" ++ (s ++ str "</em></strong>"),
        isLineTerm c = false := forall_mem_three (by decide) hterm_s (by decide)
    have hH2 := lineRules_id_shape (A := str "<strong><em>")
      (z := s ++ str "</em></strong>") htermT
      (by decide) (by decide) (by decide) (by decide) (by decide) (by decide) (by decide)
    have hI : ruleImage (str "<strong><em>" ++ (s ++ str "</em></strong>")) =
        str "<strong><em>" ++ (s ++ str "</em></strong>") :=
      scanRep_id (matchImage_none_no_lbrack hnolb)
    unfold applyRulesL
    rw [hF, hH.1, hH.2.1, hH.2.2.1, hH.2.2.2.1, hE3, hT3,
      ruleEm2_id hnostar, ruleEm1_id hnostar, ruleCode_id hnotick,
      ruleLink_id hnolb, hI,
      hH2.2.2.2.2.1, hH2.2.2.2.2.2.1, hH2.2.2.2.2.2.2]
  · -- double-asterisk span
    have htermI : ∀ c ∈ star2 ++ (s ++ star2), isLineTerm c = false :=
      forall_mem_three (by decide) hterm_s (by decide)
    have hF : ruleFence (star2 ++ (s ++ star2)) = star2 ++ (s ++ star2) :=
      ruleFence_id (notMem_three (by decide) htick (by decide))
    have hH := lineRules_id_shape (A := star2) (z := s ++ star2) htermI
      (by decide) (by decide) (by decide) (by decide) (by decide) (by decide) (by decide)
    have hE3 : ruleEm3 (star2 ++ (s ++ star2)) = star2 ++ (s ++ star2) :=
      scanRep_id (fun u hu =>
        matchDelim_star_skip (n := 3) (m := 2) (by omega) mkEm3 hne hstar u hu)
    have hE2 : ruleEm2 (star2 ++ (s ++ star2)) = mkEm2 s :=
      ruleDelim_span '*' ['*'] mkEm2 hs'
    have hT2 : mkEm2 s = str "<strong>" ++ (s ++ str "</strong>") := by
      unfold mkEm2
      rw [List.append_assoc]
    have hnostar : '*' ∉ str "<strong>" ++ (s ++ str "</strong>") :=
      notMem_three (by decide) hstar (by decide)
    have hnotick : '`' ∉ str "<strong>" ++ (s ++ str "</strong>") :=
      notMem_three (by decide) htick (by decide)
    have hnolb : '[' ∉ str "<strong>" ++ (s ++ str "</strong>") :=
      notMem_three (by decide) hlb (by decide)
    have htermT : ∀ c ∈ str "<strong>" ++ (s ++ str "</strong>"),
        isLineTerm c = false := forall_mem_three (by decide) hterm_s (by decide)
    have hH2 := lineRules_id_shape (A := str "<strong>")
      (z := s ++ str "</strong>") htermT
      (by decide) (by decide) (by decide) (by decide) (by decide) (by decide) (by decide)
    have hI : ruleImage (str "<strong>" ++ (s ++ str "</strong>")) =
        str "<strong>" ++ (s ++ str "</strong>") :=
      scanRep_id (matchImage_none_no_lbrack hnolb)
    unfold applyRulesL
    rw [hF, hH.1, hH.2.1, hH.2.2.1, hH.2.2.2.1, hE3, hE2, hT2,
      ruleEm1_id hnostar, ruleCode_id hnotick,
      ruleLink_id hnolb, hI,
      hH2.2.2.2.2.1, hH2.2.2.2.2.2.1, hH2.2.2.2.2.2.2]
  · -- single-asterisk span
    have htermI : ∀ c ∈ star1 ++ (s ++ star1), isLineTerm c = false :=
      forall_mem_three (by decide) hterm_s (by decide)
    have hF : ruleFence (star1 ++ (s ++ star1)) = star1 ++ (s ++ star1) :=
      ruleFence_id (notMem_three (by decide) htick (by decide))
    have hH := lineRules_id_shape (A := star1) (z := s ++ star1) htermI
      (by decide) (by decide) (by decide) (by decide) (by decide) (by decide) (by decide)
    have hE3 : ruleEm3 (star1 ++ (s ++ star1)) = star1 ++ (s ++ star1) :=
      scanRep_id (fun u hu =>
        matchDelim_star_skip (n := 3) (m := 1) (by omega) mkEm3 hne hstar u hu)
    have hE2 : ruleEm2 (star1 ++ (s ++ star1)) = star1 ++ (s ++ star1) :=
      scanRep_id (fun u hu =>
        matchDelim_star_skip (n := 2) (m := 1) (by omega) mkEm2 hne hstar u hu)
    have hE1 : ruleEm1 (star1 ++ (s ++ star1)) = mkEm1 s :=
      ruleDelim_span '*' [] mkEm1 hs'
    have hT1 : mkEm1 s = str "<em>" ++ (s ++ str "</em>") := by
      unfold mkEm1
      rw [List.append_assoc]
    have hnotick : '`' ∉ str "<em>" ++ (s ++ str "</em>") :=
      notMem_three (by decide) htick (by decide)
    have hnolb : '[' ∉ str "<em>" ++ (s ++ str "</em>") :=
      notMem_three (by decide) hlb (by decide)
    have htermT : ∀ c ∈ str "<em>" ++ (s ++ str "</em>"),
        isLineTerm c = false := forall_mem_three (by decide) hterm_s (by decide)
    have hH2 := lineRules_id_shape (A := str "<em>") (z := s ++ str "</em>") htermT
      (by decide) (by decide) (by decide) (by decide) (by decide) (by decide) (by decide)
    have hI : ruleImage (str "<em>" ++ (s ++ str "</em>")) =
        str "<em>" ++ (s ++ str "</em>") :=
      scanRep_id (matchImage_none_no_lbrack hnolb)
    unfold applyRulesL
    rw [hF, hH.1, hH.2.1, hH.2.2.1, hH.2.2.2.1, hE3, hE2, hE1, hT1,
      ruleCode_id hnotick,
      ruleLink_id hnolb, hI,
      hH2.2.2.2.2.1, hH2.2.2.2.2.2.1, hH2.2.2.2.2.2.2]

theorem emphasis_rule_order_witness :
    applyRulesL (star3 ++ (str "bold-italic" ++ star3)) =
      str "<strong><em>" ++ (str "bold-italic" ++ str "</em></strong>") :=
  (emphasis_rule_order (str "bold-italic") (by decide) (by decide)).1

/-! The candidate wrapping of the source coincides with the specification's
trichotomy (block-tag candidates unwrapped, list-item-containing candidates
wrapped in a list container, the rest wrapped in paragraphs). -/

theorem wrapParagraph_eq_spec : wrapParagraph = specWrapCandidate := by
  funext p
  unfold wrapParagraph specWrapCandidate startsWithBlockTag blockTagsSpec
  simp only [List.any_cons, List.any_nil, Bool.or_false, Bool.or_assoc]

theorem matchUlGap_gap {ws rest : Chars} (hws : ∀ c ∈ ws, isWs c = true) :
    matchUlGap (closeUlPat ++ (ws ++ (openUlPat ++ rest))) = some ([], rest) := by
  unfold matchUlGap
  rw [if_pos (startsWithC_append_self _ _)]
  have hdrop : (closeUlPat ++ (ws ++ (openUlPat ++ rest))).drop 5 =
      ws ++ (openUlPat ++ rest) := by
    rw [show (5 : Nat) = closeUlPat.length from rfl, List.drop_left]
  rw [hdrop]
  have hdw : (ws ++ (openUlPat ++ rest)).dropWhile isWs = openUlPat ++ rest := by
    rw [show openUlPat ++ rest = '<' :: (['u', 'l', '>'] ++ rest) from rfl]
    exact dropWhile_all_head hws (by decide)
  rw [hdw, if_pos (startsWithC_append_self _ _)]
  rw [show (4 : Nat) = openUlPat.length from rfl, List.drop_left]

/-- C2 (amended): for a nonempty input, `parseMarkdown`'s paragraph
post-processing maps every blank-line-separated candidate through the
specification's trichotomy — left unwrapped when it already starts with a
block-level tag produced by the rules (list-item tag included), wrapped in
a `<ul>` container when it contains a list item but does not start with
such a tag, wrapped in `<p>` otherwise — drops empty candidates, joins
with the fixed separator, and merges adjacent list containers; the merge
deletes each closing/opening tag pair together with the whitespace between
consecutive list blocks. -/
theorem paragraph_postprocessing_amended (md : Chars) (h : md ≠ []) :
    parseMarkdownL md =
      fixNested (List.intercalate paraJoinSep
        (((paraSplit (applyRulesL md)).map specWrapCandidate).filter
          (fun p => !p.isEmpty))) ∧
    (∀ ws rest : Chars, (∀ c ∈ ws, isWs c = true) →
      fixNested (closeUlPat ++ (ws ++ (openUlPat ++ rest))) = fixNested rest) := by
  constructor
  · unfold parseMarkdownL
    rw [if_neg (by simp [h]), wrapParagraph_eq_spec]
  · intro ws rest hws
    unfold fixNested
    rw [scanRep_some consuming_matchUlGap (matchUlGap_gap hws)]
    rfl

theorem paragraph_postprocessing_amended_witness :
    parseMarkdownL (str "x") =
      fixNested (List.intercalate paraJoinSep
        (((paraSplit (applyRulesL (str "x"))).map specWrapCandidate).filter
          (fun p => !p.isEmpty))) :=
  (paragraph_postprocessing_amended (str "x") (by decide)).1

/-! `escapeHtml` on word characters and on the angle-bracketed shape. -/

theorem escapeHtml_cons (c : Char) (l : Chars) :
    escapeHtml (c :: l) = escChar c ++ escapeHtml l := rfl

theorem escChar_word {c : Char} (h : isWordChar c = true) : escChar c = [c] := by
  have h1 : c ≠ '&' := by intro he; subst he; exact absurd h (by decide)
  have h2 : c ≠ '<' := by intro he; subst he; exact absurd h (by decide)
  have h3 : c ≠ '>' := by intro he; subst he; exact absurd h (by decide)
  have h4 : c ≠ dq := by intro he; subst he; exact absurd h (by decide)
  have h5 : c ≠ Char.ofNat 39 := by intro he; subst he; exact absurd h (by decide)
  simp [escChar, h1, h2, h3, h4, h5]

theorem escapeHtml_word {w : Chars} (hw : ∀ c ∈ w, isWordChar c = true) :
    escapeHtml w = w := by
  induction w with
  | nil => rfl
  | cons c cs ih =>
    rw [escapeHtml_cons, escChar_word (hw c (List.mem_cons_self c cs)),
      ih (fun x hx => hw x (List.mem_cons_of_mem c hx))]
    rfl

theorem escapeHtml_append (a b : Chars) :
    escapeHtml (a ++ b) = escapeHtml a ++ escapeHtml b := by
  unfold escapeHtml
  rw [List.map_append, List.flatten_append]

theorem escapeHtml_angle {w : Chars} (hw : ∀ c ∈ w, isWordChar c = true) :
    escapeHtml ('<' :: (w ++ ['>'])) = str "&lt;" ++ (w ++ str "&gt;") := by
  rw [escapeHtml_cons, escapeHtml_append, escapeHtml_word hw]
  rw [show escChar '<' = str "&lt;" from by decide]
  rw [show escapeHtml ['>'] = str "&gt;" from by decide]

/-! Computation of the fence rule on a single clean fenced block with no
language tag. -/

theorem findFenceClose_clean {s r : Chars} (hs : ∀ c ∈ s, c ≠ '\n' ∧ c ≠ '\r') :
    findFenceClose (s ++ ('\n' :: (fence3 ++ r))) = some (s, r) := by
  induction s with
  | nil =>
    rw [List.nil_append]
    simp only [findFenceClose]
    have hterm : fenceTermHead ('\n' :: (fence3 ++ r)) = some r := by
      unfold fenceTermHead
      have hn : nlOpt ('\n' :: (fence3 ++ r)) = some (fence3 ++ r) := by simp [nlOpt]
      simp only [hn]
      rw [if_pos (startsWithC_append_self _ _)]
      rw [show (3 : Nat) = fence3.length from rfl, List.drop_left]
    rw [hterm]
  | cons c cs ih =>
    have hc := hs c (List.mem_cons_self c cs)
    rw [List.cons_append]
    simp only [findFenceClose]
    have hterm : fenceTermHead (c :: (cs ++ ('\n' :: (fence3 ++ r)))) = none := by
      unfold fenceTermHead
      rw [nlOpt_none_of_head hc.1 hc.2]
    rw [hterm, ih (fun x hx => hs x (List.mem_cons_of_mem c hx))]
    rfl

theorem matchFence_nolang {content r : Chars} (hc : ∀ c ∈ content, c ≠ '\n' ∧ c ≠ '\r') :
    matchFence (fence3 ++ ('\n' :: (content ++ ('\n' :: (fence3 ++ r))))) =
      some (fenceRender [] content, r) := by
  unfold matchFence
  rw [if_pos (startsWithC_append_self _ _)]
  have hdrop : (fence3 ++ ('\n' :: (content ++ ('\n' :: (fence3 ++ r))))).drop 3 =
      '\n' :: (content ++ ('\n' :: (fence3 ++ r))) := by
    rw [show (3 : Nat) = fence3.length from rfl, List.drop_left]
  rw [hdrop]
  rw [List.dropWhile_cons, List.takeWhile_cons]
  rw [show isWordChar '\n' = false from rfl]
  simp only [Bool.false_eq_true, if_false]
  have hn : nlOpt ('\n' :: (content ++ ('\n' :: (fence3 ++ r)))) =
      some (content ++ ('\n' :: (fence3 ++ r))) := by simp [nlOpt]
  simp only [hn]
  rw [findFenceClose_clean hc]
  rfl

theorem tails_mismatch_to_suffix {A pat : Chars}
    (h : (A.tails.all (fun u => u.isEmpty || zipMismatch pat u)) = true) :
    ∀ u, u <:+ A → u ≠ [] → zipMismatch pat u = true := by
  intro u hu hne
  have h2 := tails_all_to_suffix h u hu
  rcases Bool.or_eq_true_iff.mp h2 with h3 | h3
  · exact absurd (by simpa using h3) hne
  · exact h3

theorem intercalate_single (sep x : Chars) : List.intercalate sep [x] = x := by
  simp [List.intercalate]

/-- C4 (amended): a fenced code block becomes a `<pre><code>` element whose
content is the trimmed code with ampersands, angle brackets and quotes
HTML-escaped — for a word-character body `w`, `<w>` renders as
`&lt;w&gt;` — and the escaped content survives the rest of the pipeline
untransformed because (and only because) it contains none of the markers of
the emphasis, header, or list rules. -/
theorem fence_escape_pipeline (w : Chars) (hw : ∀ c ∈ w, isWordChar c = true) :
    parseMarkdownL (fence3 ++ ('\n' :: ('<' :: (w ++ ('>' :: ('\n' :: fence3)))))) =
      str "<pre><code>&lt;" ++ (w ++ str "&gt;</code></pre>") ∧
    escapeHtml ('<' :: (w ++ ['>'])) = str "&lt;" ++ (w ++ str "&gt;") := by
  have hwno : ∀ x : Char, isWordChar x = false → x ∉ w :=
    fun x hx hm => absurd (hw x hm) (by simp [hx])
  have hwterm : ∀ c ∈ w, isLineTerm c = false := by
    intro c hc
    unfold isLineTerm
    simp only [Bool.or_eq_false_iff, decide_eq_false_iff_not]
    constructor
    · intro he; subst he; exact absurd (hw _ hc) (by decide)
    · intro he; subst he; exact absurd (hw _ hc) (by decide)
  have hcont : ∀ c ∈ '<' :: (w ++ ['>']), c ≠ '\n' ∧ c ≠ '\r' := by
    intro c hc
    rcases List.mem_cons.mp hc with rfl | hc2
    · exact ⟨by decide, by decide⟩
    · rcases List.mem_append.mp hc2 with h3 | h3
      · have := hwterm c h3
        simp only [isLineTerm, Bool.or_eq_false_iff, decide_eq_false_iff_not] at this
        exact this
      · simp at h3
        subst h3
        exact ⟨by decide, by decide⟩
  have hesc : escapeHtml ('<' :: (w ++ ['>'])) = str "&lt;" ++ (w ++ str "&gt;") :=
    escapeHtml_angle hw
  refine ⟨?_, hesc⟩
  have hmd : fence3 ++ ('\n' :: ('<' :: (w ++ ('>' :: ('\n' :: fence3))))) =
      fence3 ++ ('\n' :: (('<' :: (w ++ ['>'])) ++ ('\n' :: (fence3 ++ [])))) := by
    simp [List.append_assoc]
  have htrimc : trimChars ('<' :: (w ++ ['>'])) = '<' :: (w ++ ['>']) :=
    trimChars_id_shape w (by decide) (by decide)
  have hTnorm : fenceRender [] ('<' :: (w ++ ['>'])) =
      str "<pre><code>&lt;" ++ (w ++ str "&gt;</code></pre>") := by
    show str "<pre><code>" ++ escapeHtml (trimChars ('<' :: (w ++ ['>']))) ++
        str "</code></pre>" = _
    rw [htrimc, hesc]
    rw [show (str "<pre><code>&lt;" : Chars) = str "<pre><code>" ++ str "&lt;" from by decide,
      show (str "&gt;</code></pre>" : Chars) = str "&gt;" ++ str "</code></pre>" from by decide]
    simp [List.append_assoc]
  have hRF : ruleFence (fence3 ++ ('\n' :: ('<' :: (w ++ ('>' :: ('\n' :: fence3)))))) =
      str "<pre><code>&lt;" ++ (w ++ str "&gt;</code></pre>") := by
    rw [hmd]
    unfold ruleFence
    rw [scanRep_some consuming_matchFence (matchFence_nolang hcont)]
    rw [scanRep_nil (show matchFence [] = none from rfl), List.append_nil, hTnorm]
  -- the post-fence stages leave the escaped block unchanged
  have hnostar : '*' ∉ str "<pre><code>&lt;" ++ (w ++ str "&gt;</code></pre>") :=
    notMem_three (by decide) (hwno '*' (by decide)) (by decide)
  have hnotick : '`' ∉ str "<pre><code>&lt;" ++ (w ++ str "&gt;</code></pre>") :=
    notMem_three (by decide) (hwno '`' (by decide)) (by decide)
  have hnolb : '[' ∉ str "<pre><code>&lt;" ++ (w ++ str "&gt;</code></pre>") :=
    notMem_three (by decide) (hwno '[' (by decide)) (by decide)
  have htermT : ∀ c ∈ str "<pre><code>&lt;" ++ (w ++ str "&gt;</code></pre>"),
      isLineTerm c = false := forall_mem_three (by decide) hwterm (by decide)
  have hH := lineRules_id_shape (A := str "<pre><code>&lt;")
    (z := w ++ str "&gt;</code></pre>") htermT
    (by decide) (by decide) (by decide) (by decide) (by decide) (by decide) (by decide)
  have hI : ruleImage (str "<pre><code>&lt;" ++ (w ++ str "&gt;</code></pre>")) =
      str "<pre><code>&lt;" ++ (w ++ str "&gt;</code></pre>") :=
    scanRep_id (matchImage_none_no_lbrack hnolb)
  have happly : applyRulesL (fence3 ++ ('\n' :: ('<' :: (w ++ ('>' :: ('\n' :: fence3)))))) =
      str "<pre><code>&lt;" ++ (w ++ str "&gt;</code></pre>") := by
    unfold applyRulesL
    rw [hRF, hH.1, hH.2.1, hH.2.2.1, hH.2.2.2.1,
      ruleEm3_id hnostar, ruleEm2_id hnostar, ruleEm1_id hnostar,
      ruleCode_id hnotick, ruleLink_id hnolb, hI,
      hH.2.2.2.2.1, hH.2.2.2.2.2.1, hH.2.2.2.2.2.2]
  -- paragraph stage
  have hsplit : paraSplit (str "<pre><code>&lt;" ++ (w ++ str "&gt;</code></pre>")) =
      [str "<pre><code>&lt;" ++ (w ++ str "&gt;</code></pre>")] :=
    paraSplit_no_term htermT
  have hshape : str "<pre><code>&lt;" ++ (w ++ str "&gt;</code></pre>") =
      '<' :: ((str "pre><code>&lt;" ++ (w ++ str "&gt;</code></pre")) ++ ['>']) := by
    rw [show (str "&gt;</code></pre>" : Chars) = str "&gt;</code></pre" ++ ['>'] from by decide]
    rw [show (str "<pre><code>&lt;" : Chars) = '<' :: str "pre><code>&lt;" from rfl]
    simp [List.append_assoc]
  have htrimT : trimChars (str "<pre><code>&lt;" ++ (w ++ str "&gt;</code></pre>")) =
      str "<pre><code>&lt;" ++ (w ++ str "&gt;</code></pre>") := by
    rw [hshape]
    exact trimChars_id_shape _ (by decide) (by decide)
  have hne : (str "<pre><code>&lt;" ++ (w ++ str "&gt;</code></pre>")).isEmpty = false := by
    rw [hshape]
    rfl
  have hswh : startsWithC (str "<h") (str "<pre><code>&lt;" ++ (w ++ str "&gt;</code></pre>"))
      = false := by
    rw [sw_append_of_le _ (by decide)]
    decide
  have hswpre : startsWithC (str "<pre")
      (str "<pre><code>&lt;" ++ (w ++ str "&gt;</code></pre>")) = true := by
    rw [sw_append_of_le _ (by decide)]
    decide
  have hwrap : wrapParagraph (str "<pre><code>&lt;" ++ (w ++ str "&gt;</code></pre>")) =
      str "<pre><code>&lt;" ++ (w ++ str "&gt;</code></pre>") := by
    simp only [wrapParagraph, htrimT, hne, hswh, hswpre]
    simp
  have hfix : fixNested (str "<pre><code>&lt;" ++ (w ++ str "&gt;</code></pre>")) =
      str "<pre><code>&lt;" ++ (w ++ str "&gt;</code></pre>") := by
    apply scanRep_id
    intro u hu
    apply matchUlGap_none_of_nsw
    refine sw_false_three_part (P := isWordChar)
      ⟨'<', ['/', 'u', 'l', '>'], rfl, fun c hc he => by subst he; exact absurd hc (by decide)⟩
      (tails_mismatch_to_suffix (by decide)) hw
      (fun v hv => by
        have := tails_all_to_suffix
          (show ((str "&gt;</code></pre>").tails.all
            (fun u => !(startsWithC closeUlPat u))) = true from by decide) v hv
        simpa using this)
      u hu
  have hguard : (fence3 ++ ('\n' :: ('<' :: (w ++ ('>' :: ('\n' :: fence3)))))).isEmpty
      = false := by simp [fence3]
  simp only [parseMarkdownL, hguard, Bool.false_eq_true, if_false]
  rw [happly, hsplit]
  simp only [List.map_cons, List.map_nil, hwrap]
  rw [show ([str "<pre><code>&lt;" ++ (w ++ str "&gt;</code></pre>")].filter
      (fun p => !p.isEmpty)) = [str "<pre><code>&lt;" ++ (w ++ str "&gt;</code></pre>")]
    from by simp [List.filter, hne]]
  rw [intercalate_single, hfix]

theorem fence_escape_pipeline_witness :
    parseMarkdownL (fence3 ++ ('\n' :: ('<' :: (str "script" ++ ('>' :: ('\n' :: fence3)))))) =
      str "<pre><code>&lt;" ++ (str "script" ++ str "&gt;</code></pre>") :=
  (fence_escape_pipeline (str "script") (by decide)).1
